import Mathlib

/-!
# Verification of the obsidian-gemini-sync reconciliation engine

Shallow embedding of the sync core of the `obsidian-gemini-sync` plugin:

* `src/drive/driveClient.ts` — transfer engine (retry helper, resumable
  protocol, scoped soft deletion);
* `src/sync/remoteManifest.ts` — remote manifest load/save;
* `src/sync/concurrency.ts` — the `pLimit` bounded worker pool;
* `src/sync/syncManager.ts` — the `syncVault` reconciliation run
  (diff pass, transfer phase, cleaning phase) and `calculateFileHash`.

JavaScript objects used as string-keyed maps (`manifest.files`,
`settings.syncIndex`) are embedded as association lists with unique keys;
network effects are embedded as oracle functions supplied in an
environment record, and the observable remote calls of a run are recorded
in an explicit trace.
-/

set_option maxHeartbeats 1000000

namespace GeminiSync

/-! ## Association-list maps (JS object semantics)

`getKey` is property lookup, `setKey` is property assignment (update in
place when the key exists, append otherwise), `delKey` is the JS `delete`
operator.  Keys are unique in every map built by the code (JSON objects),
which `setKey`/`delKey` preserve. -/

def getKey {β : Type} (k : String) : List (String × β) → Option β
  | [] => none
  | (k', v) :: rest => if k' = k then some v else getKey k rest

def setKey {β : Type} (k : String) (v : β) : List (String × β) → List (String × β)
  | [] => [(k, v)]
  | (k', v') :: rest => if k' = k then (k, v) :: rest else (k', v') :: setKey k v rest

def delKey {β : Type} (k : String) : List (String × β) → List (String × β)
  | [] => []
  | (k', v') :: rest => if k' = k then rest else (k', v') :: delKey k rest

def keysOf {β : Type} (l : List (String × β)) : List String := l.map Prod.fst

@[simp] theorem getKey_setKey_self {β : Type} (k : String) (v : β) (l : List (String × β)) :
    getKey k (setKey k v l) = some v := by
  induction l with
  | nil => simp [getKey, setKey]
  | cons hd tl ih =>
    obtain ⟨k', v'⟩ := hd
    by_cases h : k' = k <;> simp [getKey, setKey, h, ih]

theorem getKey_setKey_ne {β : Type} {k q : String} (v : β) (l : List (String × β))
    (h : q ≠ k) : getKey q (setKey k v l) = getKey q l := by
  have hkq : ¬(k = q) := fun hh => h hh.symm
  induction l with
  | nil => simp [getKey, setKey, hkq]
  | cons hd tl ih =>
    obtain ⟨k', v'⟩ := hd
    by_cases hk : k' = k
    · subst hk
      simp [getKey, setKey, hkq]
    · simp only [setKey, if_neg hk, getKey]
      by_cases hq : k' = q <;> simp [hq, ih]

theorem getKey_delKey_ne {β : Type} {k q : String} (l : List (String × β))
    (h : q ≠ k) : getKey q (delKey k l) = getKey q l := by
  have hkq : ¬(k = q) := fun hh => h hh.symm
  induction l with
  | nil => simp [delKey]
  | cons hd tl ih =>
    obtain ⟨k', v'⟩ := hd
    by_cases hk : k' = k
    · subst hk
      simp [getKey, delKey, hkq]
    · simp only [delKey, if_neg hk, getKey]
      by_cases hq : k' = q <;> simp [hq, ih]

theorem getKey_eq_none_of_not_mem {β : Type} {k : String} {l : List (String × β)}
    (h : k ∉ keysOf l) : getKey k l = none := by
  induction l with
  | nil => simp [getKey]
  | cons hd tl ih =>
    obtain ⟨k', v'⟩ := hd
    simp only [keysOf, List.map_cons, List.mem_cons] at h
    push_neg at h
    simp only [getKey, if_neg (Ne.symm h.1)]
    exact ih h.2

theorem getKey_delKey_self {β : Type} (k : String) (l : List (String × β))
    (h : (keysOf l).Nodup) : getKey k (delKey k l) = none := by
  induction l with
  | nil => simp [delKey, getKey]
  | cons hd tl ih =>
    obtain ⟨k', v'⟩ := hd
    simp only [keysOf, List.map_cons, List.nodup_cons] at h
    by_cases hk : k' = k
    · subst hk
      simp only [delKey, if_pos rfl]
      exact getKey_eq_none_of_not_mem h.1
    · simp [getKey, delKey, hk, ih h.2]

theorem mem_keysOf_iff {β : Type} (k : String) (l : List (String × β)) :
    k ∈ keysOf l ↔ (getKey k l).isSome := by
  induction l with
  | nil => simp [keysOf, getKey]
  | cons hd tl ih =>
    obtain ⟨k', v'⟩ := hd
    by_cases h : k' = k
    · subst h; simp [keysOf, getKey]
    · simp [keysOf, getKey, h, Ne.symm h] at ih ⊢
      exact ih

/-! ## DriveClient: scoped soft deletion (`deleteFile`, `isDescendant`)

`src/drive/driveClient.ts` lines 667–722.  The Drive parent metadata is an
oracle `parents : id → Option (List id)`; `none` models a failing
`drive.files.get` request (the code catches it and returns `false`).
Remote mutations are recorded explicitly; the only mutation `deleteFile`
can emit is `DriveMutation.trash` (the code updates `trashed := true` and
never calls the permanent-delete endpoint). -/

inductive DriveMutation
  | trash (id : String)
  | permanentDelete (id : String)
deriving DecidableEq, Repr

structure ParentsEnv where
  parents : String → Option (List String)

/-- The bounded upward walk of `isDescendant`: `MAX_DEPTH = 50` iterations,
each fetching the current node's parents, succeeding when `ancestorId`
occurs among them, failing on a request error, an empty parent list
(root/orphan) or fuel exhaustion. -/
def descendantWalk (env : ParentsEnv) (ancestorId : String) : Nat → String → Bool
  | 0, _ => false
  | fuel + 1, currentId =>
    match env.parents currentId with
    | none => false
    | some [] => false
    | some (p :: ps) =>
      if (p :: ps).contains ancestorId then true
      else descendantWalk env ancestorId fuel p

def isDescendant (env : ParentsEnv) (childId ancestorId : String) : Bool :=
  descendantWalk env ancestorId 50 childId

def securityViolationMsg : String :=
  "Security Violation: File is outside the allowed vault scope."

/-- `deleteFile(fileId, scopeId?)`: validates the scope (when supplied and
`fileId` is not the scope root itself) before moving the file to trash.
Returns the call outcome together with the list of remote mutations it
performed. -/
def deleteFile (env : ParentsEnv) (fileId : String) (scopeId : Option String) :
    Except String Unit × List DriveMutation :=
  match scopeId with
  | some s =>
    if fileId ≠ s then
      if isDescendant env fileId s then (Except.ok (), [DriveMutation.trash fileId])
      else (Except.error securityViolationMsg, [])
    else (Except.ok (), [DriveMutation.trash fileId])
  | none => (Except.ok (), [DriveMutation.trash fileId])

/-- C2: a scoped `deleteFile` on a target that is neither the scope root
nor a confirmed descendant of it (within the bounded parent walk, and in
particular when no parent chain exists) throws the security-violation
error and performs no remote mutation; and every deletion `deleteFile`
ever performs, in any call, is a soft delete (move to trash), never a
permanent delete. -/
theorem deleteFile_scope_safety (env : ParentsEnv) (fileId scopeId : String)
    (hne : fileId ≠ scopeId) (hnd : isDescendant env fileId scopeId = false) :
    deleteFile env fileId (some scopeId) = (Except.error securityViolationMsg, [])
    ∧ (∀ fid : String, ∀ sc : Option String, ∀ m : DriveMutation,
        m ∈ (deleteFile env fid sc).2 → m = DriveMutation.trash fid) := by
  constructor
  · simp [deleteFile, hne, hnd]
  · intro fid sc m hm
    match sc with
    | none => simpa [deleteFile] using hm
    | some s =>
      by_cases h : fid = s
      · simp [deleteFile, h] at hm
        rw [hm, h]
      · by_cases hd : isDescendant env fid s
        · simp [deleteFile, h, hd] at hm
          rw [hm]
        · simp [deleteFile, h, hd] at hm

/-- Witness for C2 at a concrete input: an orphan file (empty parent list)
outside the scope root blocks with the security error, and all performed
deletions are trashes. -/
theorem deleteFile_scope_safety_witness :
    deleteFile ⟨fun _ => some []⟩ "fileX" (some "scopeRoot")
        = (Except.error securityViolationMsg, [])
    ∧ (∀ fid : String, ∀ sc : Option String, ∀ m : DriveMutation,
        m ∈ (deleteFile ⟨fun _ => some []⟩ fid sc).2 → m = DriveMutation.trash fid) :=
  deleteFile_scope_safety ⟨fun _ => some []⟩ "fileX" "scopeRoot"
    (by decide) (by decide)

/-! ## DriveClient: retry helper (`fetchWithRetry`)

`src/drive/driveClient.ts` lines 382–408.  The `i`-th `fetch` call's
outcome comes from an oracle; the embedding returns the final result
(`ok status` models a returned `Response`, including non-ok non-retryable
responses which the code hands back to the caller; `error` models a thrown
exception), the number of `fetch` calls made, and the list of backoff
delays slept. -/

inductive FetchOutcome
  | netError
  | resp (status : Nat)
deriving DecidableEq, Repr

def isOkStatus (s : Nat) : Bool := 200 ≤ s && s < 300

def isRetryableStatus (s : Nat) : Bool := s == 408 || s == 429 || (500 ≤ s && s < 600)

structure FetchResult where
  result : Except String Nat
  calls : Nat
  delays : List Nat
deriving Repr

def fetchGo (responses : Nat → FetchOutcome) : Nat → Nat → Nat → Nat → List Nat → FetchResult
  | 0, _, _, calls, delays =>
    ⟨Except.error "Unreachable", calls, delays⟩
  | remaining + 1, i, backoff, calls, delays =>
    match responses i with
    | FetchOutcome.netError =>
      if remaining = 0 then ⟨Except.error "network failure", calls + 1, delays⟩
      else fetchGo responses remaining (i + 1) (backoff * 2) (calls + 1) (delays ++ [backoff])
    | FetchOutcome.resp s =>
      if isOkStatus s then ⟨Except.ok s, calls + 1, delays⟩
      else if isRetryableStatus s then
        if remaining = 0 then ⟨Except.error "retries exhausted", calls + 1, delays⟩
        else fetchGo responses remaining (i + 1) (backoff * 2) (calls + 1) (delays ++ [backoff])
      else ⟨Except.ok s, calls + 1, delays⟩

/-- `fetchWithRetry(url, init)` with the default `retries = 3`,
`backoff = 1000`. -/
def fetchWithRetry (responses : Nat → FetchOutcome) : FetchResult :=
  fetchGo responses 3 0 1000 0 []

theorem isOkStatus_false_of_retryable {s : Nat} (h : isRetryableStatus s = true) :
    isOkStatus s = false := by
  have hs : (s = 408 ∨ s = 429) ∨ (500 ≤ s ∧ s < 600) := by
    simpa [isRetryableStatus] using h
  have hno : ¬(200 ≤ s ∧ s < 300) := by omega
  simp only [isOkStatus]
  rw [Bool.and_eq_false_iff]
  by_cases h1 : 200 ≤ s
  · right
    simp only [decide_eq_false_iff_not]
    intro h2
    exact hno ⟨h1, h2⟩
  · left
    simp [h1]

def retryableOutcome : FetchOutcome → Prop
  | FetchOutcome.netError => True
  | FetchOutcome.resp s => isRetryableStatus s = true

instance : DecidablePred retryableOutcome := fun o => by
  cases o <;> simp [retryableOutcome] <;> infer_instance

/-- C6: a retryable transport outcome (408, 429, any 5xx, or a network
error) is retried up to 3 attempts with exponential backoff 1000 ms then
2000 ms, after which the failure surfaces as an error; a response with a
non-retryable status is returned to the caller immediately after a single
fetch, with no delay. -/
theorem fetchWithRetry_policy (responses : Nat → FetchOutcome) :
    ((∀ i, i < 3 → retryableOutcome (responses i)) →
      (∃ msg, (fetchWithRetry responses).result = Except.error msg)
      ∧ (fetchWithRetry responses).calls = 3
      ∧ (fetchWithRetry responses).delays = [1000, 2000])
    ∧ (∀ s : Nat, responses 0 = FetchOutcome.resp s →
        isOkStatus s = false → isRetryableStatus s = false →
        fetchWithRetry responses = ⟨Except.ok s, 1, []⟩) := by
  constructor
  · intro h
    have h0 := h 0 (by omega)
    have h1 := h 1 (by omega)
    have h2 := h 2 (by omega)
    unfold fetchWithRetry
    cases hr0 : responses 0 with
    | netError =>
      simp only [fetchGo, hr0]
      cases hr1 : responses 1 with
      | netError =>
        simp only [fetchGo, hr1]
        cases hr2 : responses 2 with
        | netError => simp [fetchGo, hr2]
        | resp s =>
          rw [hr2] at h2
          simp only [retryableOutcome] at h2
          simp [fetchGo, hr2, h2, isOkStatus_false_of_retryable h2]
      | resp s =>
        rw [hr1] at h1
        simp only [retryableOutcome] at h1
        simp only [fetchGo, hr1, isOkStatus_false_of_retryable h1, h1]
        cases hr2 : responses 2 with
        | netError => simp [fetchGo, hr2]
        | resp s2 =>
          rw [hr2] at h2
          simp only [retryableOutcome] at h2
          simp [fetchGo, hr2, h2, isOkStatus_false_of_retryable h2]
    | resp s =>
      rw [hr0] at h0
      simp only [retryableOutcome] at h0
      simp only [fetchGo, hr0, isOkStatus_false_of_retryable h0, h0]
      cases hr1 : responses 1 with
      | netError =>
        simp only [fetchGo, hr1]
        cases hr2 : responses 2 with
        | netError => simp [fetchGo, hr2]
        | resp s2 =>
          rw [hr2] at h2
          simp only [retryableOutcome] at h2
          simp [fetchGo, hr2, h2, isOkStatus_false_of_retryable h2]
      | resp s1 =>
        rw [hr1] at h1
        simp only [retryableOutcome] at h1
        simp only [fetchGo, hr1, isOkStatus_false_of_retryable h1, h1]
        cases hr2 : responses 2 with
        | netError => simp [fetchGo, hr2]
        | resp s2 =>
          rw [hr2] at h2
          simp only [retryableOutcome] at h2
          simp [fetchGo, hr2, h2, isOkStatus_false_of_retryable h2]
  · intro s hs hok hretry
    unfold fetchWithRetry
    simp [fetchGo, hs, hok, hretry]

/-- Witness for C6: three straight 503 responses exhaust the retries with
delays 1000 and 2000; a single 404 response is handed back untouched. -/
theorem fetchWithRetry_policy_witness :
    ((∃ msg, (fetchWithRetry (fun _ => FetchOutcome.resp 503)).result = Except.error msg)
      ∧ (fetchWithRetry (fun _ => FetchOutcome.resp 503)).calls = 3
      ∧ (fetchWithRetry (fun _ => FetchOutcome.resp 503)).delays = [1000, 2000])
    ∧ fetchWithRetry (fun _ => FetchOutcome.resp 404) = ⟨Except.ok 404, 1, []⟩ :=
  ⟨(fetchWithRetry_policy (fun _ => FetchOutcome.resp 503)).1
      (fun i _ => by simp [retryableOutcome, isRetryableStatus]),
   (fetchWithRetry_policy (fun _ => FetchOutcome.resp 404)).2 404 rfl
      (by decide) (by decide)⟩

/-! ## DriveClient: resumable uploads (`uploadFileResumable`, `shouldUseResumable`)

`src/drive/driveClient.ts` lines 211, 410–423 and 515–588.  Each
whole-operation attempt performs one session-initiate request and, if it
yields a session location, one content PUT tagged with the
`Content-Range` built by `buildContentRange`.  The outcome of the
initiate/PUT of attempt `k` (1-based) comes from oracles; `err c` models a
thrown error whose message carries HTTP status `c` (the code detects
session expiry by matching `410` in the message). -/

inductive ReqOutcome
  | ok (payload : String)
  | err (code : Nat)
deriving DecidableEq, Repr

inductive UploadErr
  | http (code : Nat)
  | unexpected
deriving DecidableEq, Repr

inductive UpEvent
  | initiate
  | put (range : String)
deriving DecidableEq, Repr

structure ResumableEnv where
  initOutcome : Nat → ReqOutcome
  putOutcome : Nat → ReqOutcome

def SIMPLE_UPLOAD_LIMIT : Nat := 5 * 1024 * 1024

def shouldUseResumable (size : Nat) : Bool := size > SIMPLE_UPLOAD_LIMIT

/-- `Content-Range` header for the resumable PUT: the complete span
`0 .. size-1` of `size` bytes (`bytes */0` for an empty payload). -/
def buildContentRange (size : Nat) : String :=
  if size = 0 then "bytes */0"
  else "bytes 0-" ++ toString (size - 1) ++ "/" ++ toString size

/-- The `while (attempt < maxAttempts)` loop of `uploadFileResumable` with
`maxAttempts = 3`: `remaining` is the fuel left, `attempt` the number of
attempts already begun; a `410` failure with `attempt < 3` restarts the
whole operation with a fresh session, all other errors propagate. -/
def resumableAttempts (env : ResumableEnv) (size : Nat) :
    Nat → Nat → List UpEvent → Except UploadErr String × List UpEvent
  | 0, _, tr => (Except.error UploadErr.unexpected, tr)
  | remaining + 1, attempt, tr =>
    let att := attempt + 1
    let tr1 := tr ++ [UpEvent.initiate]
    match env.initOutcome att with
    | ReqOutcome.err c =>
      if c = 410 ∧ att < 3 then resumableAttempts env size remaining att tr1
      else (Except.error (UploadErr.http c), tr1)
    | ReqOutcome.ok _loc =>
      let tr2 := tr1 ++ [UpEvent.put (buildContentRange size)]
      match env.putOutcome att with
      | ReqOutcome.err c =>
        if c = 410 ∧ att < 3 then resumableAttempts env size remaining att tr2
        else (Except.error (UploadErr.http c), tr2)
      | ReqOutcome.ok fileId => (Except.ok fileId, tr2)

def uploadFileResumable (env : ResumableEnv) (size : Nat) :
    Except UploadErr String × List UpEvent :=
  resumableAttempts env size 3 0 []

/-- C4: a payload strictly larger than the 5 MB threshold selects the
resumable protocol, whose byte-range header covers the complete span.
With the session-initiate succeeding, each whole-operation attempt issues
exactly one initiate followed by exactly one content PUT: a first-attempt
PUT success gives trace `[initiate, put]`; a `410` (session expired) on
the first PUT restarts the whole operation once, succeeding on the second
attempt; `410` on every PUT stops after 3 whole-operation attempts and
propagates the error. -/
theorem uploadFileResumable_protocol (env : ResumableEnv) (size : Nat)
    (hsize : 5 * 1024 * 1024 < size)
    (hinit : ∀ k, ∃ loc, env.initOutcome k = ReqOutcome.ok loc) :
    shouldUseResumable size = true
    ∧ buildContentRange size = "bytes 0-" ++ toString (size - 1) ++ "/" ++ toString size
    ∧ (∀ fileId, env.putOutcome 1 = ReqOutcome.ok fileId →
        uploadFileResumable env size
          = (Except.ok fileId, [UpEvent.initiate, UpEvent.put (buildContentRange size)]))
    ∧ (∀ fileId, env.putOutcome 1 = ReqOutcome.err 410 →
        env.putOutcome 2 = ReqOutcome.ok fileId →
        uploadFileResumable env size
          = (Except.ok fileId,
             [UpEvent.initiate, UpEvent.put (buildContentRange size),
              UpEvent.initiate, UpEvent.put (buildContentRange size)]))
    ∧ ((∀ k, env.putOutcome k = ReqOutcome.err 410) →
        uploadFileResumable env size
          = (Except.error (UploadErr.http 410),
             [UpEvent.initiate, UpEvent.put (buildContentRange size),
              UpEvent.initiate, UpEvent.put (buildContentRange size),
              UpEvent.initiate, UpEvent.put (buildContentRange size)])) := by
  obtain ⟨l1, h1⟩ := hinit 1
  obtain ⟨l2, h2⟩ := hinit 2
  obtain ⟨l3, h3⟩ := hinit 3
  refine ⟨by simp [shouldUseResumable, SIMPLE_UPLOAD_LIMIT]; omega,
    by rw [buildContentRange, if_neg (by omega)], ?_, ?_, ?_⟩
  · intro fileId hput
    simp [uploadFileResumable, resumableAttempts, h1, hput]
  · intro fileId hput1 hput2
    simp [uploadFileResumable, resumableAttempts, h1, h2, hput1, hput2]
  · intro hput
    simp [uploadFileResumable, resumableAttempts, h1, h2, h3, hput 1, hput 2, hput 3]

/-- Witness for C4 at concrete inputs: a 5 MB + 1 byte payload whose first
PUT reports 410 and whose second PUT succeeds. -/
theorem uploadFileResumable_protocol_witness :
    shouldUseResumable 5242881 = true
    ∧ buildContentRange 5242881 = "bytes 0-" ++ toString (5242881 - 1) ++ "/" ++ toString 5242881
    ∧ (∀ fileId,
        (fun k => if k = 1 then ReqOutcome.err 410 else ReqOutcome.ok "newId") 1
            = ReqOutcome.ok fileId →
        uploadFileResumable ⟨fun _ => ReqOutcome.ok "loc",
            fun k => if k = 1 then ReqOutcome.err 410 else ReqOutcome.ok "newId"⟩ 5242881
          = (Except.ok fileId, [UpEvent.initiate, UpEvent.put (buildContentRange 5242881)]))
    ∧ (∀ fileId,
        (fun k => if k = 1 then ReqOutcome.err 410 else ReqOutcome.ok "newId") 1
            = ReqOutcome.err 410 →
        (fun k => if k = 1 then ReqOutcome.err 410 else ReqOutcome.ok "newId") 2
            = ReqOutcome.ok fileId →
        uploadFileResumable ⟨fun _ => ReqOutcome.ok "loc",
            fun k => if k = 1 then ReqOutcome.err 410 else ReqOutcome.ok "newId"⟩ 5242881
          = (Except.ok fileId,
             [UpEvent.initiate, UpEvent.put (buildContentRange 5242881),
              UpEvent.initiate, UpEvent.put (buildContentRange 5242881)]))
    ∧ ((∀ k, (fun k => if k = 1 then ReqOutcome.err 410 else ReqOutcome.ok "newId") k
            = ReqOutcome.err 410) →
        uploadFileResumable ⟨fun _ => ReqOutcome.ok "loc",
            fun k => if k = 1 then ReqOutcome.err 410 else ReqOutcome.ok "newId"⟩ 5242881
          = (Except.error (UploadErr.http 410),
             [UpEvent.initiate, UpEvent.put (buildContentRange 5242881),
              UpEvent.initiate, UpEvent.put (buildContentRange 5242881),
              UpEvent.initiate, UpEvent.put (buildContentRange 5242881)])) :=
  uploadFileResumable_protocol
    ⟨fun _ => ReqOutcome.ok "loc",
     fun k => if k = 1 then ReqOutcome.err 410 else ReqOutcome.ok "newId"⟩
    5242881 (by omega) (fun _ => ⟨"loc", rfl⟩)

/-! ## Remote manifest load (`loadManifest`)

`src/sync/remoteManifest.ts` lines 25–52 and the orchestrator fallback in
`src/sync/syncManager.ts` lines 152–155.  `findManifest` models the
`getFileId` lookup (`Except.error` = transport failure thrown; `ok none` =
manifest object absent), `download` models `getFileContent` (which catches
internally and returns `null` on failure), and `parse` models `JSON.parse`
(`Except.error` = parse exception, caught by `loadManifest`'s `try`).
`loadManifest` is a total function into `Option`: it never throws. -/

structure RemoteEntry where
  path : String
  driveId : String
  hash : String
  modifiedTime : Nat
deriving DecidableEq, Repr

structure RemoteManifest where
  version : Nat
  lastSync : Nat
  files : List (String × RemoteEntry)
deriving DecidableEq, Repr

structure ManifestLoadEnv where
  findManifest : Except String (Option String)
  download : String → Option String
  parse : String → Except String RemoteManifest

def loadManifest (env : ManifestLoadEnv) : Option RemoteManifest :=
  match env.findManifest with
  | Except.error _ => none
  | Except.ok none => none
  | Except.ok (some manifestId) =>
    match env.download manifestId with
    | none => none
    | some content =>
      match env.parse content with
      | Except.error _ => none
      | Except.ok m => some m

def createEmptyManifest (now : Nat) : RemoteManifest := ⟨1, now, []⟩

/-- The orchestrator's fallback: `remoteManifest = loadManifest(rootId)`;
`if (!remoteManifest) remoteManifest = createEmptyManifest()`. -/
def initialManifest (env : ManifestLoadEnv) (now : Nat) : RemoteManifest :=
  (loadManifest env).getD (createEmptyManifest now)

/-- C8: `loadManifest` (a total function — it never throws) returns `none`
when the manifest object is absent, when its content is missing, when
parsing fails, and when the lookup throws a transport error; in every such
case the orchestrator proceeds with a fresh empty in-memory manifest. -/
theorem loadManifest_never_throws (env : ManifestLoadEnv) (now : Nat) :
    (∀ e, env.findManifest = Except.error e → loadManifest env = none)
    ∧ (env.findManifest = Except.ok none → loadManifest env = none)
    ∧ (∀ mid, env.findManifest = Except.ok (some mid) → env.download mid = none →
        loadManifest env = none)
    ∧ (∀ mid content e, env.findManifest = Except.ok (some mid) →
        env.download mid = some content → env.parse content = Except.error e →
        loadManifest env = none)
    ∧ (loadManifest env = none →
        initialManifest env now = createEmptyManifest now
        ∧ (initialManifest env now).files = []) := by
  refine ⟨?_, ?_, ?_, ?_, ?_⟩
  · intro e he
    simp [loadManifest, he]
  · intro he
    simp [loadManifest, he]
  · intro mid hf hd
    simp [loadManifest, hf, hd]
  · intro mid content e hf hd hp
    simp [loadManifest, hf, hd, hp]
  · intro hnone
    simp [initialManifest, hnone, createEmptyManifest]

/-- Witness for C8 at a concrete input: a transport failure on lookup
degrades to the empty manifest. -/
theorem loadManifest_never_throws_witness :
    loadManifest ⟨Except.error "HTTP 500", fun _ => none, fun _ => Except.error "bad"⟩ = none
    ∧ initialManifest ⟨Except.error "HTTP 500", fun _ => none, fun _ => Except.error "bad"⟩ 7
        = createEmptyManifest 7 := by
  have h := loadManifest_never_throws
    ⟨Except.error "HTTP 500", fun _ => none, fun _ => Except.error "bad"⟩ 7
  have hn : loadManifest
      ⟨Except.error "HTTP 500", fun _ => none, fun _ => Except.error "bad"⟩ = none :=
    h.1 "HTTP 500" rfl
  exact ⟨hn, (h.2.2.2.2 hn).1⟩

/-! ## Concurrency controller (`pLimit`)

`src/sync/concurrency.ts` lines 7–43.  The pool's observable state is the
list of in-flight task ids, the pending queue, and the delivered
outcomes.  `submit` models `enqueue` (run immediately below the ceiling,
else push), `settle id ok` models one running task settling — `run`'s
`finally` calls `next()`, which decrements the active count and starts the
next queued job; `resolve`/`reject` delivers `ok` to that task's own
caller, recorded in `done`.  A trace is valid when every settled task was
in flight. -/

structure PoolState where
  running : List Nat
  queue : List Nat
  done : List (Nat × Bool)
deriving DecidableEq, Repr

inductive PoolEvent
  | submit (id : Nat)
  | settle (id : Nat) (ok : Bool)
deriving DecidableEq, Repr

def poolStep (limit : Nat) (s : PoolState) : PoolEvent → PoolState
  | PoolEvent.submit id =>
    if s.running.length < limit then { s with running := s.running ++ [id] }
    else { s with queue := s.queue ++ [id] }
  | PoolEvent.settle id ok =>
    let s' : PoolState := ⟨s.running.erase id, s.queue, s.done ++ [(id, ok)]⟩
    match s'.queue with
    | [] => s'
    | t :: ts => ⟨s'.running ++ [t], ts, s'.done⟩

def runPool (limit : Nat) (evs : List PoolEvent) : PoolState :=
  evs.foldl (poolStep limit) ⟨[], [], []⟩

def validFrom (limit : Nat) (s : PoolState) : List PoolEvent → Bool
  | [] => true
  | e :: es =>
    (match e with
     | PoolEvent.submit _ => true
     | PoolEvent.settle id _ => s.running.contains id)
    && validFrom limit (poolStep limit s e) es

theorem poolStep_length_le (limit : Nat) (s : PoolState) (e : PoolEvent)
    (hs : s.running.length ≤ limit)
    (hv : ∀ id ok, e = PoolEvent.settle id ok → id ∈ s.running) :
    (poolStep limit s e).running.length ≤ limit := by
  cases e with
  | submit id =>
    by_cases h : s.running.length < limit <;> simp [poolStep, h] <;> omega
  | settle id ok =>
    have hmem : id ∈ s.running := hv id ok rfl
    have herase : (s.running.erase id).length = s.running.length - 1 :=
      List.length_erase_of_mem hmem
    have hpos : 0 < s.running.length := List.length_pos.mpr (by
      intro hempty
      rw [hempty] at hmem
      exact absurd hmem (List.not_mem_nil id))
    cases hq : s.queue with
    | nil => simp [poolStep, hq, herase]; omega
    | cons t ts => simp [poolStep, hq, herase]; omega

theorem validFrom_foldl_le (limit : Nat) (evs : List PoolEvent) :
    ∀ s : PoolState, s.running.length ≤ limit → validFrom limit s evs = true →
      (evs.foldl (poolStep limit) s).running.length ≤ limit := by
  induction evs with
  | nil => intro s hs _; simpa using hs
  | cons e es ih =>
    intro s hs hv
    simp only [validFrom, Bool.and_eq_true] at hv
    refine ih (poolStep limit s e) ?_ hv.2
    refine poolStep_length_le limit s e hs ?_
    intro id ok he
    subst he
    simpa using hv.1

/-- C9: (1) along any valid trace, at most `limit` tasks are in flight at
every moment; (2) when a task settles while the queue is non-empty, the
head of the queue is started; (3) a task's rejection has the same
scheduling effect as its fulfilment, no sibling task (running or queued)
is cancelled by it, and the settled task's own outcome is delivered
individually to its caller. -/
theorem pLimit_guarantees (limit : Nat) :
    (∀ evs : List PoolEvent, validFrom limit ⟨[], [], []⟩ evs = true →
        (runPool limit evs).running.length ≤ limit)
    ∧ (∀ s : PoolState, ∀ id t : Nat, ∀ ok : Bool, ∀ ts : List Nat, s.queue = t :: ts →
        poolStep limit s (PoolEvent.settle id ok)
          = ⟨s.running.erase id ++ [t], ts, s.done ++ [(id, ok)]⟩)
    ∧ (∀ s : PoolState, ∀ id : Nat, ∀ ok : Bool,
        (poolStep limit s (PoolEvent.settle id true)).running
            = (poolStep limit s (PoolEvent.settle id false)).running
        ∧ (poolStep limit s (PoolEvent.settle id true)).queue
            = (poolStep limit s (PoolEvent.settle id false)).queue
        ∧ (∀ j ∈ s.running, j ≠ id → j ∈ (poolStep limit s (PoolEvent.settle id ok)).running)
        ∧ (∀ j ∈ s.queue, j ∈ (poolStep limit s (PoolEvent.settle id ok)).running
            ∨ j ∈ (poolStep limit s (PoolEvent.settle id ok)).queue)
        ∧ (id, ok) ∈ (poolStep limit s (PoolEvent.settle id ok)).done) := by
  refine ⟨?_, ?_, ?_⟩
  · intro evs hv
    exact validFrom_foldl_le limit evs ⟨[], [], []⟩ (by simp) hv
  · intro s id t ok ts hq
    simp [poolStep, hq]
  · intro s id ok
    refine ⟨?_, ?_, ?_, ?_, ?_⟩
    · cases hq : s.queue <;> simp [poolStep, hq]
    · cases hq : s.queue <;> simp [poolStep, hq]
    · intro j hj hne
      have hj' : j ∈ s.running.erase id := (List.mem_erase_of_ne hne).mpr hj
      cases hq : s.queue <;> simp [poolStep, hq, hj']
    · intro j hj
      cases hq : s.queue with
      | nil => rw [hq] at hj; exact absurd hj (List.not_mem_nil j)
      | cons t ts =>
        rw [hq] at hj
        rcases List.mem_cons.mp hj with h | h
        · left; simp [poolStep, hq, h]
        · right; simp [poolStep, hq, h]
    · cases hq : s.queue <;> simp [poolStep, hq]

/-- Witness for C9 at a concrete trace: limit 2, three submissions (one
queued), then the first task rejects, which starts the queued task. -/
theorem pLimit_guarantees_witness :
    (runPool 2 [PoolEvent.submit 1, PoolEvent.submit 2, PoolEvent.submit 3,
        PoolEvent.settle 1 false, PoolEvent.settle 2 true]).running.length ≤ 2
    ∧ poolStep 2 ⟨[1, 2], [3], []⟩ (PoolEvent.settle 1 false)
        = ⟨[2, 3], [], [(1, false)]⟩ :=
  ⟨(pLimit_guarantees 2).1 _ (by decide),
   (pLimit_guarantees 2).2.1 ⟨[1, 2], [3], []⟩ 1 3 false [] rfl⟩

/-! ## Content hashing (`calculateFileHash`)

`src/sync/syncManager.ts` lines 467–480.  `CryptoJS.MD5` is modelled as
an idealized collision-free digest (`cryptoMD5` on text read via
`vault.read`, `cryptoMD5Bytes` on the byte buffer of `vault.readBinary`);
the development only relies on digest equality tracking input equality,
which is the digest's intended contract.  For a `.canvas` file the code
hashes the markdown generated by `canvasConverter.generateCanvasMarkdown`,
carried in `canvasMarkdown`. -/

def cryptoMD5 (text : String) : String := text

def cryptoMD5Bytes (bytes : List Nat) : String := toString bytes

structure LocalFile where
  path : String
  parentPath : String
  name : String
  basename : String
  extension : String
  mtime : Nat
  textContent : String
  canvasMarkdown : String
  binaryContent : List Nat
deriving DecidableEq, Repr

def calculateFileHash (f : LocalFile) : String :=
  if f.extension = "md" then cryptoMD5 f.textContent
  else if f.extension = "canvas" then cryptoMD5 f.canvasMarkdown
  else cryptoMD5Bytes f.binaryContent

/-- The codebase's only line-ending normalizer (`convertToGoogleDocs`:
`markdown.replace(/\r\n/g, '\n').replace(/\r/g, '\n')`), used by the
document converter but NOT by `calculateFileHash`. -/
def normalizeEol : List Char → List Char
  | [] => []
  | '\r' :: '\n' :: rest => '\n' :: normalizeEol rest
  | '\r' :: rest => '\n' :: normalizeEol rest
  | c :: rest => c :: normalizeEol rest

def normalizeNewlines (s : String) : String := ⟨normalizeEol s.data⟩

/-! ## The `syncVault` reconciliation run

`src/sync/syncManager.ts` lines 124–454.  The embedding covers a
non-cancelled run (the claims below quantify only over such runs, so
`cancelRequested` stays `false` and the cooperative checks never fire).
Network effects are oracles in `Env`:

* `listing folder name` — the per-folder `listFilesInFolder` cache entry
  consulted by smart recovery;
* `uploadOk p` — whether the create/update transfer for path `p`
  succeeds (`false` models the thrown per-item exception, caught by the
  task's `catch`);
* `deleteOk p` — whether the cleaning-phase `deleteFile` for path `p`
  succeeds (`false` covers both a scope violation and a transport error,
  both caught and logged);
* `newId p` — the id Drive assigns to a newly created object;
* `now` — `Date.now()`.

The `pLimit(2)` interleaving and the by-folder grouping of the transfer
phase only batch folder listings and permute the per-file tasks; every
task mutates the shared maps at its own path only, so with unique vault
paths the final state equals the sequential fold below, and the recorded
trace is order-insensitive for every property stated here.  The periodic
checkpoint saves persist the in-memory state modelled here and do not
change it. -/

structure IndexEntry where
  path : String
  driveId : String
  hash : String
  lastModified : Nat
deriving DecidableEq, Repr

structure RemoteMeta where
  id : String
  modifiedTime : Option Nat
  md5Checksum : Option String
deriving DecidableEq, Repr

structure Env where
  files : List LocalFile
  excludedFolders : List String
  syncPDFs : Bool
  syncCanvas : Bool
  syncImages : Bool
  syncIndex0 : List (String × IndexEntry)
  manifest0 : List (String × RemoteEntry)
  listing : String → String → Option RemoteMeta
  uploadOk : String → Bool
  deleteOk : String → Bool
  newId : String → String
  now : Nat

def isExcluded (excludedFolders : List String) (path : String) : Bool :=
  excludedFolders.any (fun ex => path == ex || path.startsWith (ex ++ "/"))

/-- The inclusion filter applied to `vault.getFiles()`: excluded folders
are rejected, `.md` always passes, `.pdf`/`.canvas`/images pass per the
settings flags, everything else is rejected. -/
def includeFile (e : Env) (f : LocalFile) : Bool :=
  if isExcluded e.excludedFolders f.path then false
  else if f.extension == "md" then true
  else if f.extension == "pdf" then e.syncPDFs
  else if f.extension == "canvas" then e.syncCanvas
  else if ["png", "jpg", "jpeg", "gif"].contains f.extension then e.syncImages
  else false

def filesToSync (e : Env) : List LocalFile := e.files.filter (includeFile e)

/-- The local hash used by the diff: trust the cached index entry when its
stored mtime equals the file's current one and it carries a (truthy)
hash, otherwise compute a fresh hash. -/
def diffHash (index : List (String × IndexEntry)) (f : LocalFile) : String :=
  match getKey f.path index with
  | some c => if c.lastModified = f.mtime ∧ c.hash ≠ "" then c.hash else calculateFileHash f
  | none => calculateFileHash f

/-- `!this.settings.syncIndex[file.path] ||
this.settings.syncIndex[file.path].lastModified !== file.stat.mtime`. -/
def refreshNeeded (index : List (String × IndexEntry)) (f : LocalFile) : Bool :=
  match getKey f.path index with
  | none => true
  | some c => c.lastModified != f.mtime

structure DiffState where
  index : List (String × IndexEntry)
  kept : List String
  toUpload : List LocalFile
deriving DecidableEq, Repr

/-- One step of the pre-calculation diff pass (lines 188–227): hash-match
against the manifest skips the file (refreshing the index entry when
needed), otherwise the file joins `filesToUpload`. -/
def diffStep (e : Env) (acc : DiffState) (f : LocalFile) : DiffState :=
  let localHash := diffHash acc.index f
  match getKey f.path e.manifest0 with
  | some remoteEntry =>
    if remoteEntry.hash = localHash then
      let index :=
        if refreshNeeded acc.index f then
          setKey f.path ⟨f.path, remoteEntry.driveId, localHash, f.mtime⟩ acc.index
        else acc.index
      ⟨index, f.path :: acc.kept, acc.toUpload⟩
    else ⟨acc.index, acc.kept, acc.toUpload ++ [f]⟩
  | none => ⟨acc.index, acc.kept, acc.toUpload ++ [f]⟩

def diffPass (e : Env) : DiffState :=
  (filesToSync e).foldl (diffStep e) ⟨e.syncIndex0, [], []⟩

inductive DriveCall
  | create (path : String)
  | update (path : String)
  | softDelete (path : String)
deriving DecidableEq, Repr

structure SyncState where
  manifest : List (String × RemoteEntry)
  index : List (String × IndexEntry)
  kept : List String
  trace : List DriveCall
deriving DecidableEq, Repr

def isDocType (f : LocalFile) : Bool := f.extension == "md" || f.extension == "canvas"

/-- Manifest/index writes performed after a successful transfer
(`uploadFile` lines 439–453): manifest gets the freshly computed hash and
`Date.now()`, the index gets the same hash and the file's mtime. -/
def writeEntries (e : Env) (f : LocalFile) (driveId : String) (st : SyncState) : SyncState :=
  let hash := calculateFileHash f
  { st with
    manifest := setKey f.path ⟨f.path, driveId, hash, e.now⟩ st.manifest,
    index := setKey f.path ⟨f.path, driveId, hash, f.mtime⟩ st.index }

def searchNameOf (f : LocalFile) : String := if isDocType f then f.basename else f.name

/-- The reuse heuristic: doc types compare the remote modification time
against the local mtime, binaries compare the remote checksum against the
local hash. -/
def recoveryUpToDate (f : LocalFile) (existingFile : RemoteMeta) (localHash : String) : Bool :=
  if isDocType f then decide (existingFile.modifiedTime.getD 0 > f.mtime)
  else existingFile.md5Checksum == some localHash

/-- Smart recovery (lines 283–322): when the manifest has no entry, look
the file up in the pre-fetched folder listing; a doc-type match is reused
when the remote mtime is newer than the local one, a binary match when the
remote checksum equals the local hash; otherwise a sentinel `mismatch`
entry forces an update of the existing remote object. -/
def smartRecovery (e : Env) (f : LocalFile) (localHash : String) (st : SyncState) :
    SyncState × Option RemoteEntry :=
  match e.listing f.parentPath (searchNameOf f) with
  | none => (st, none)
  | some existingFile =>
    if recoveryUpToDate f existingFile localHash then
      let ent : RemoteEntry := ⟨f.path, existingFile.id, localHash, e.now⟩
      ({ st with
          manifest := setKey f.path ent st.manifest,
          index := setKey f.path ⟨f.path, existingFile.id, localHash, f.mtime⟩ st.index },
        some ent)
    else
      let ent : RemoteEntry := ⟨f.path, existingFile.id, "mismatch", 0⟩
      ({ st with manifest := setKey f.path ent st.manifest }, some ent)

/-- `this.uploadFile(file, rootId, manifest)` (lines 410–454): update the
existing object when the manifest holds an entry for the path, create a
new object otherwise.  The emitted call records the attempt; on failure
(`uploadOk = false`, the HTTP call threw) no entry is written. -/
def uploadFile (e : Env) (f : LocalFile) (st : SyncState) : SyncState :=
  match getKey f.path st.manifest with
  | some existingEntry =>
    let st1 := { st with trace := st.trace ++ [DriveCall.update f.path] }
    if e.uploadOk f.path then writeEntries e f existingEntry.driveId st1 else st1
  | none =>
    let st1 := { st with trace := st.trace ++ [DriveCall.create f.path] }
    if e.uploadOk f.path then writeEntries e f (e.newId f.path) st1 else st1

/-- One transfer-phase task (lines 259–355): recompute the local hash,
run smart recovery when the manifest entry is missing, upload when the
entry is missing or mismatched, and mark the path kept unless the upload
threw (the per-item `catch` swallows the exception after `uploadFile`, so
`keptRemotePaths.add` is skipped exactly when the transfer failed). -/
def runTask (e : Env) (st : SyncState) (f : LocalFile) : SyncState :=
  let localHash := diffHash st.index f
  let recovered :=
    match getKey f.path st.manifest with
    | some r => (st, some r)
    | none => smartRecovery e f localHash st
  let st1 := recovered.1
  match recovered.2 with
  | none =>
    let st2 := uploadFile e f st1
    if e.uploadOk f.path then { st2 with kept := f.path :: st2.kept } else st2
  | some remoteEntry =>
    if remoteEntry.hash ≠ localHash then
      let st2 := uploadFile e f st1
      if e.uploadOk f.path then { st2 with kept := f.path :: st2.kept } else st2
    else
      let st2 :=
        if refreshNeeded st1.index f then
          { st1 with
            index := setKey f.path ⟨f.path, remoteEntry.driveId, localHash, f.mtime⟩ st1.index }
        else st1
      { st2 with kept := f.path :: st2.kept }

def transferPass (e : Env) (d : DiffState) : SyncState :=
  d.toUpload.foldl (runTask e) ⟨e.manifest0, d.index, d.kept, []⟩

/-- One cleaning-phase step (lines 362–384) for a manifest path from the
snapshot taken at the start of the phase: paths not marked kept and not
under an exclusion rule are soft-deleted via the scoped `deleteFile` and
removed from manifest and index; a deletion failure is logged and
skipped. -/
def cleanStep (e : Env) (st : SyncState) (remotePath : String) : SyncState :=
  if st.kept.contains remotePath then st
  else if isExcluded e.excludedFolders remotePath then st
  else
    match getKey remotePath st.manifest with
    | none => st
    | some _entry =>
      let st1 := { st with trace := st.trace ++ [DriveCall.softDelete remotePath] }
      if e.deleteOk remotePath then
        { st1 with
          manifest := delKey remotePath st1.manifest,
          index := delKey remotePath st1.index }
      else st1

def cleanPass (e : Env) (st : SyncState) : SyncState :=
  (keysOf st.manifest).foldl (cleanStep e) st

/-- A complete non-cancelled `syncVault` run: diff pass, transfer phase,
cleaning phase. -/
def syncVault (e : Env) : SyncState :=
  cleanPass e (transferPass e (diffPass e))

def pathsOf (fs : List LocalFile) : List String := fs.map LocalFile.path

/-- The skip verdict of the diff engine against a manifest and an index:
the manifest entry exists and its hash equals the (cache-trusting) local
hash. -/
def skipCheckM (manifest : List (String × RemoteEntry))
    (index : List (String × IndexEntry)) (f : LocalFile) : Bool :=
  match getKey f.path manifest with
  | some r => r.hash == diffHash index f
  | none => false

/-- The orphan set computed by the cleaning phase: manifest paths not
marked kept this run and not under an exclusion rule. -/
def orphanPaths (e : Env) : List String :=
  let st := transferPass e (diffPass e)
  (keysOf st.manifest).filter
    (fun p => ¬st.kept.contains p ∧ ¬isExcluded e.excludedFolders p)

/-! ### Map-key helper lemmas -/

theorem mem_keysOf_setKey {β : Type} (p k : String) (v : β) (l : List (String × β)) :
    p ∈ keysOf (setKey k v l) ↔ p = k ∨ p ∈ keysOf l := by
  induction l with
  | nil => simp [setKey, keysOf]
  | cons hd tl ih =>
    obtain ⟨k', v'⟩ := hd
    by_cases h : k' = k
    · subst h
      simp [setKey, keysOf]
    · simp only [setKey, if_neg h, keysOf, List.map_cons, List.mem_cons]
      rw [show keysOf (setKey k v tl) = (setKey k v tl).map Prod.fst from rfl] at ih
      constructor
      · rintro (h1 | h1)
        · right; left; exact h1
        · rcases ih.mp h1 with h2 | h2
          · left; exact h2
          · right; right; exact h2
      · rintro (h1 | h1 | h1)
        · right; exact ih.mpr (Or.inl h1)
        · left; exact h1
        · right; exact ih.mpr (Or.inr h1)

theorem nodup_keysOf_setKey {β : Type} (k : String) (v : β) (l : List (String × β))
    (h : (keysOf l).Nodup) : (keysOf (setKey k v l)).Nodup := by
  induction l with
  | nil => simp [setKey, keysOf]
  | cons hd tl ih =>
    obtain ⟨k', v'⟩ := hd
    simp only [keysOf, List.map_cons, List.nodup_cons] at h
    by_cases hk : k' = k
    · subst hk
      simpa [setKey, keysOf, List.nodup_cons] using h
    · simp only [setKey, if_neg hk, keysOf, List.map_cons, List.nodup_cons]
      refine ⟨?_, ih h.2⟩
      intro hmem
      rcases (mem_keysOf_setKey k' k v tl).mp hmem with h1 | h1
      · exact hk h1
      · exact h.1 h1

theorem delKey_cons {β : Type} (k k' : String) (v' : β) (tl : List (String × β)) :
    delKey k ((k', v') :: tl) = if k' = k then tl else (k', v') :: delKey k tl := rfl

theorem mem_keysOf_cons {β : Type} (p k' : String) (v' : β) (tl : List (String × β)) :
    p ∈ keysOf ((k', v') :: tl) ↔ p = k' ∨ p ∈ keysOf tl := by
  simp [keysOf]

theorem keysOf_delKey_subset {β : Type} (k p : String) (l : List (String × β))
    (h : p ∈ keysOf (delKey k l)) : p ∈ keysOf l := by
  induction l with
  | nil => simpa [delKey] using h
  | cons hd tl ih =>
    obtain ⟨k', v'⟩ := hd
    rw [delKey_cons] at h
    by_cases hk : k' = k
    · rw [if_pos hk] at h
      exact (mem_keysOf_cons p k' v' tl).mpr (Or.inr h)
    · rw [if_neg hk, mem_keysOf_cons] at h
      rcases h with h | h
      · exact (mem_keysOf_cons p k' v' tl).mpr (Or.inl h)
      · exact (mem_keysOf_cons p k' v' tl).mpr (Or.inr (ih h))

theorem nodup_keysOf_delKey {β : Type} (k : String) (l : List (String × β))
    (h : (keysOf l).Nodup) : (keysOf (delKey k l)).Nodup := by
  induction l with
  | nil => simp [delKey, keysOf]
  | cons hd tl ih =>
    obtain ⟨k', v'⟩ := hd
    simp only [keysOf, List.map_cons, List.nodup_cons] at h
    rw [delKey_cons]
    by_cases hk : k' = k
    · rw [if_pos hk]
      exact h.2
    · rw [if_neg hk]
      simp only [keysOf, List.map_cons, List.nodup_cons]
      exact ⟨fun hmem => h.1 (keysOf_delKey_subset k k' tl hmem), ih h.2⟩

theorem getKey_delKey_none {β : Type} (k p : String) (l : List (String × β))
    (h : getKey p l = none) : getKey p (delKey k l) = none := by
  induction l with
  | nil => simp [delKey, getKey]
  | cons hd tl ih =>
    obtain ⟨k', v'⟩ := hd
    by_cases hp : k' = p
    · rw [show getKey p ((k', v') :: tl) = some v' from by simp [getKey, hp]] at h
      exact absurd h (by simp)
    · rw [show getKey p ((k', v') :: tl) = getKey p tl from by simp [getKey, hp]] at h
      rw [delKey_cons]
      by_cases hk : k' = k
      · rw [if_pos hk]
        exact h
      · rw [if_neg hk]
        rw [show getKey p ((k', v') :: delKey k tl) = getKey p (delKey k tl) from by
          simp [getKey, hp]]
        exact ih h

/-! ### Diff-pass lemmas -/

theorem diffHash_congr {idx1 idx2 : List (String × IndexEntry)} (f : LocalFile)
    (h : getKey f.path idx1 = getKey f.path idx2) : diffHash idx1 f = diffHash idx2 f := by
  unfold diffHash
  rw [h]

/-- Reading the index entry at a different path leaves `diffHash`
unchanged after a `setKey` elsewhere. -/
theorem diffHash_setKey_ne (idx : List (String × IndexEntry)) (f : LocalFile)
    (k : String) (v : IndexEntry) (h : f.path ≠ k) :
    diffHash (setKey k v idx) f = diffHash idx f :=
  diffHash_congr f (getKey_setKey_ne v idx h)

/-- Writing back an index entry carrying the diff hash and the current
mtime does not change the diff hash (the case `diffHash = ""` can only
come from a fresh computation, so the untrusted re-read agrees). -/
theorem diffHash_setKey_diffHash (idx : List (String × IndexEntry)) (f : LocalFile)
    (driveId : String) :
    diffHash (setKey f.path ⟨f.path, driveId, diffHash idx f, f.mtime⟩ idx) f
      = diffHash idx f := by
  have hstep : diffHash (setKey f.path ⟨f.path, driveId, diffHash idx f, f.mtime⟩ idx) f
      = if f.mtime = f.mtime ∧ diffHash idx f ≠ "" then diffHash idx f
        else calculateFileHash f := by
    unfold diffHash
    rw [getKey_setKey_self]
  by_cases hne : diffHash idx f = ""
  · rw [hstep, if_neg (by simp [hne])]
    unfold diffHash at hne ⊢
    cases hidx : getKey f.path idx with
    | none => rfl
    | some c =>
      rw [hidx] at hne
      by_cases hc : c.lastModified = f.mtime ∧ c.hash ≠ ""
      · simp only [if_pos hc] at hne
        exact absurd hne hc.2
      · simp only [if_neg hc]
  · rw [hstep, if_pos ⟨rfl, hne⟩]

theorem skipCheckM_true_iff (m : List (String × RemoteEntry))
    (idx : List (String × IndexEntry)) (f : LocalFile) :
    skipCheckM m idx f = true
      ↔ ∃ r, getKey f.path m = some r ∧ r.hash = diffHash idx f := by
  unfold skipCheckM
  cases hm : getKey f.path m <;> simp

theorem skipCheckM_congr {m1 m2 : List (String × RemoteEntry)}
    {idx1 idx2 : List (String × IndexEntry)} (f : LocalFile)
    (hm : getKey f.path m1 = getKey f.path m2)
    (hi : getKey f.path idx1 = getKey f.path idx2) :
    skipCheckM m1 idx1 f = skipCheckM m2 idx2 f := by
  unfold skipCheckM
  rw [hm, diffHash_congr f hi]

theorem skipCheckM_congr_hash {m : List (String × RemoteEntry)}
    {idx1 idx2 : List (String × IndexEntry)} (f : LocalFile)
    (h : diffHash idx1 f = diffHash idx2 f) :
    skipCheckM m idx1 f = skipCheckM m idx2 f := by
  unfold skipCheckM
  cases hm : getKey f.path m <;> simp [h]

/-- Skip branch of the diff step as an equation. -/
theorem diffStep_skip_eq (e : Env) (acc : DiffState) (f : LocalFile) (r : RemoteEntry)
    (hm : getKey f.path e.manifest0 = some r) (hr : r.hash = diffHash acc.index f) :
    diffStep e acc f =
      ⟨if refreshNeeded acc.index f then
          setKey f.path ⟨f.path, r.driveId, diffHash acc.index f, f.mtime⟩ acc.index
        else acc.index,
       f.path :: acc.kept, acc.toUpload⟩ := by
  simp only [diffStep, hm, if_pos hr]

/-- Upload branch of the diff step as an equation. -/
theorem diffStep_upload_eq (e : Env) (acc : DiffState) (f : LocalFile)
    (h : skipCheckM e.manifest0 acc.index f = false) :
    diffStep e acc f = ⟨acc.index, acc.kept, acc.toUpload ++ [f]⟩ := by
  unfold skipCheckM at h
  cases hm : getKey f.path e.manifest0 with
  | none => simp only [diffStep, hm]
  | some r =>
    rw [hm] at h
    simp only [beq_eq_false_iff_ne, ne_eq] at h
    simp only [diffStep, hm, if_neg h]

/-- The diff step, stated through `skipCheckM`: on a skip the index entry
at the path it writes (or keeps) has the file's mtime and preserves the
diff hash. -/
theorem diffStep_skip_spec (e : Env) (acc : DiffState) (f : LocalFile)
    (h : skipCheckM e.manifest0 acc.index f = true) :
    (diffStep e acc f).kept = f.path :: acc.kept
    ∧ (diffStep e acc f).toUpload = acc.toUpload
    ∧ diffHash (diffStep e acc f).index f = diffHash acc.index f
    ∧ (∃ c, getKey f.path (diffStep e acc f).index = some c ∧ c.lastModified = f.mtime)
    ∧ (∀ q, q ≠ f.path → getKey q (diffStep e acc f).index = getKey q acc.index) := by
  obtain ⟨r, hm, hr⟩ := (skipCheckM_true_iff _ _ _).mp h
  rw [diffStep_skip_eq e acc f r hm hr]
  refine ⟨rfl, rfl, ?_, ?_, ?_⟩
  · by_cases hn : refreshNeeded acc.index f
    · simp only [if_pos hn]
      exact diffHash_setKey_diffHash acc.index f r.driveId
    · simp only [if_neg hn]
  · by_cases hn : refreshNeeded acc.index f
    · simp only [if_pos hn]
      exact ⟨_, getKey_setKey_self _ _ _, rfl⟩
    · simp only [if_neg hn]
      unfold refreshNeeded at hn
      cases hidx : getKey f.path acc.index with
      | none =>
        rw [hidx] at hn
        simp at hn
      | some c =>
        rw [hidx] at hn
        simp at hn
        exact ⟨c, rfl, hn⟩
  · intro q hq
    by_cases hn : refreshNeeded acc.index f
    · simp only [if_pos hn]
      exact getKey_setKey_ne _ _ hq
    · simp only [if_neg hn]

/-- Each diff step changes kept and `toUpload` only by the processed
file. -/
theorem diffStep_components (e : Env) (acc : DiffState) (f : LocalFile) :
    ((diffStep e acc f).kept = acc.kept ∨ (diffStep e acc f).kept = f.path :: acc.kept)
    ∧ ((diffStep e acc f).toUpload = acc.toUpload
        ∨ (diffStep e acc f).toUpload = acc.toUpload ++ [f]) := by
  cases hsc : skipCheckM e.manifest0 acc.index f
  · rw [diffStep_upload_eq e acc f hsc]
    exact ⟨Or.inl rfl, Or.inr rfl⟩
  · obtain ⟨hk, ht, _⟩ := diffStep_skip_spec e acc f hsc
    exact ⟨Or.inr hk, Or.inl ht⟩

theorem diffStep_index_frame (e : Env) (acc : DiffState) (f : LocalFile) (q : String)
    (hq : q ≠ f.path) : getKey q (diffStep e acc f).index = getKey q acc.index := by
  cases hsc : skipCheckM e.manifest0 acc.index f
  · rw [diffStep_upload_eq e acc f hsc]
  · exact (diffStep_skip_spec e acc f hsc).2.2.2.2 q hq

theorem pathsOf_append (l1 l2 : List LocalFile) :
    pathsOf (l1 ++ l2) = pathsOf l1 ++ pathsOf l2 := by
  simp [pathsOf]

theorem diff_foldl_kept_mono (e : Env) (L : List LocalFile) :
    ∀ (acc : DiffState) (q : String), q ∈ acc.kept →
      q ∈ (L.foldl (diffStep e) acc).kept := by
  induction L with
  | nil => intro acc q h; simpa using h
  | cons g rest ih =>
    intro acc q h
    simp only [List.foldl_cons]
    refine ih _ q ?_
    rcases (diffStep_components e acc g).1 with hk | hk <;> rw [hk]
    · exact h
    · exact List.mem_cons_of_mem _ h

theorem diff_foldl_kept_sub (e : Env) (L : List LocalFile) :
    ∀ (acc : DiffState) (q : String), q ∈ (L.foldl (diffStep e) acc).kept →
      q ∈ acc.kept ∨ q ∈ pathsOf L := by
  induction L with
  | nil => intro acc q h; left; simpa using h
  | cons g rest ih =>
    intro acc q h
    simp only [List.foldl_cons] at h
    rcases ih _ q h with h1 | h1
    · rcases (diffStep_components e acc g).1 with hk | hk
      · rw [hk] at h1; left; exact h1
      · rw [hk] at h1
        rcases List.mem_cons.mp h1 with h2 | h2
        · right; simp [pathsOf, h2]
        · left; exact h2
    · right
      simp only [pathsOf, List.map_cons, List.mem_cons]
      right; exact h1

theorem diff_foldl_toUpload_mono (e : Env) (L : List LocalFile) :
    ∀ (acc : DiffState) (g : LocalFile), g ∈ acc.toUpload →
      g ∈ (L.foldl (diffStep e) acc).toUpload := by
  induction L with
  | nil => intro acc g h; simpa using h
  | cons g0 rest ih =>
    intro acc g h
    simp only [List.foldl_cons]
    refine ih _ g ?_
    rcases (diffStep_components e acc g0).2 with ht | ht <;> rw [ht]
    · exact h
    · exact List.mem_append_left _ h

theorem diff_foldl_toUpload_sub (e : Env) (L : List LocalFile) :
    ∀ (acc : DiffState) (g : LocalFile), g ∈ (L.foldl (diffStep e) acc).toUpload →
      g ∈ acc.toUpload ∨ g ∈ L := by
  induction L with
  | nil => intro acc g h; left; simpa using h
  | cons g0 rest ih =>
    intro acc g h
    simp only [List.foldl_cons] at h
    rcases ih _ g h with h1 | h1
    · rcases (diffStep_components e acc g0).2 with ht | ht
      · rw [ht] at h1; left; exact h1
      · rw [ht] at h1
        rcases List.mem_append.mp h1 with h2 | h2
        · left; exact h2
        · right; simp only [List.mem_singleton] at h2; simp [h2]
    · right; exact List.mem_cons_of_mem _ h1

theorem diff_foldl_toUpload_paths_sub (e : Env) (L : List LocalFile)
    (acc : DiffState) (q : String) (h : q ∈ pathsOf (L.foldl (diffStep e) acc).toUpload) :
    q ∈ pathsOf acc.toUpload ∨ q ∈ pathsOf L := by
  simp only [pathsOf, List.mem_map] at h
  obtain ⟨g, hg, rfl⟩ := h
  rcases diff_foldl_toUpload_sub e L acc g hg with h1 | h1
  · left; exact List.mem_map_of_mem _ h1
  · right; exact List.mem_map_of_mem _ h1

theorem diff_foldl_index_frame (e : Env) (L : List LocalFile) :
    ∀ (acc : DiffState) (q : String), q ∉ pathsOf L →
      getKey q (L.foldl (diffStep e) acc).index = getKey q acc.index := by
  induction L with
  | nil => intro acc q _; rfl
  | cons g rest ih =>
    intro acc q h
    simp only [pathsOf, List.map_cons, List.mem_cons] at h
    push_neg at h
    simp only [List.foldl_cons]
    rw [ih _ q (by simpa [pathsOf] using h.2)]
    exact diffStep_index_frame e acc g q h.1

/-- Per-file behaviour of the whole diff pass over a pathwise-`Nodup`
file list: a file whose skip verdict holds at its processing turn is
marked kept, is never uploaded, keeps its diff hash, and ends with an
index entry carrying its mtime; a file whose verdict fails joins
`toUpload` with its index entry untouched and is not marked kept. -/
theorem diff_foldl_spec (e : Env) (L : List LocalFile) :
    ∀ acc : DiffState, (pathsOf L).Nodup → ∀ f ∈ L,
      (skipCheckM e.manifest0 acc.index f = true →
        f.path ∈ (L.foldl (diffStep e) acc).kept
        ∧ (f.path ∉ pathsOf acc.toUpload →
            f.path ∉ pathsOf (L.foldl (diffStep e) acc).toUpload)
        ∧ diffHash (L.foldl (diffStep e) acc).index f = diffHash acc.index f
        ∧ (∃ c, getKey f.path (L.foldl (diffStep e) acc).index = some c
            ∧ c.lastModified = f.mtime))
      ∧ (skipCheckM e.manifest0 acc.index f = false →
        f ∈ (L.foldl (diffStep e) acc).toUpload
        ∧ getKey f.path (L.foldl (diffStep e) acc).index = getKey f.path acc.index
        ∧ (f.path ∉ acc.kept → f.path ∉ (L.foldl (diffStep e) acc).kept)) := by
  induction L with
  | nil => intro acc _ f hf; exact absurd hf (List.not_mem_nil f)
  | cons g rest ih =>
    intro acc hnd f hf
    simp only [pathsOf, List.map_cons, List.nodup_cons] at hnd
    have hndrest : (pathsOf rest).Nodup := hnd.2
    simp only [List.foldl_cons]
    rcases List.mem_cons.mp hf with hfg | hfr
    · subst hfg
      have hfnotrest : f.path ∉ pathsOf rest := hnd.1
      constructor
      · intro hsc
        obtain ⟨hk, ht, hdh, hex, hfr5⟩ := diffStep_skip_spec e acc f hsc
        have hidxfr : getKey f.path (rest.foldl (diffStep e) (diffStep e acc f)).index
            = getKey f.path (diffStep e acc f).index :=
          diff_foldl_index_frame e rest _ f.path hfnotrest
        refine ⟨?_, ?_, ?_, ?_⟩
        · refine diff_foldl_kept_mono e rest _ f.path ?_
          rw [hk]; exact List.mem_cons_self _ _
        · intro hnot hmem
          rcases diff_foldl_toUpload_paths_sub e rest _ f.path hmem with h1 | h1
          · rw [ht] at h1; exact hnot h1
          · exact hfnotrest h1
        · rw [diffHash_congr f hidxfr, hdh]
        · obtain ⟨c, hc, hcm⟩ := hex
          exact ⟨c, by rw [hidxfr, hc], hcm⟩
      · intro hsc
        rw [diffStep_upload_eq e acc f hsc]
        refine ⟨?_, ?_, ?_⟩
        · refine diff_foldl_toUpload_mono e rest _ f ?_
          exact List.mem_append_right _ (List.mem_singleton_self f)
        · rw [diff_foldl_index_frame e rest _ f.path hfnotrest]
        · intro hnot hmem
          rcases diff_foldl_kept_sub e rest _ f.path hmem with h1 | h1
          · exact hnot h1
          · exact hfnotrest h1
    · have hgne : f.path ≠ g.path := by
        intro hh
        exact hnd.1 (hh ▸ List.mem_map_of_mem LocalFile.path hfr)
      have hcongr : skipCheckM e.manifest0 (diffStep e acc g).index f
          = skipCheckM e.manifest0 acc.index f :=
        skipCheckM_congr f rfl (diffStep_index_frame e acc g f.path hgne)
      have ihs := ih (diffStep e acc g) hndrest f hfr
      constructor
      · intro hsc
        obtain ⟨h1, h2, h3, h4⟩ := ihs.1 (by rw [hcongr]; exact hsc)
        refine ⟨h1, ?_, ?_, h4⟩
        · intro hnot
          refine h2 ?_
          rcases (diffStep_components e acc g).2 with ht | ht <;> rw [ht]
          · exact hnot
          · rw [pathsOf_append]
            intro hmem
            rcases List.mem_append.mp hmem with hA | hB
            · exact hnot hA
            · simp only [pathsOf, List.map_cons, List.map_nil, List.mem_singleton] at hB
              exact hgne hB
        · rw [h3, diffHash_congr f (diffStep_index_frame e acc g f.path hgne)]
      · intro hsc
        obtain ⟨h1, h2, h3⟩ := ihs.2 (by rw [hcongr]; exact hsc)
        refine ⟨h1, ?_, ?_⟩
        · rw [h2, diffStep_index_frame e acc g f.path hgne]
        · intro hnot
          refine h3 ?_
          rcases (diffStep_components e acc g).1 with hk | hk <;> rw [hk]
          · exact hnot
          · intro hmem
            rcases List.mem_cons.mp hmem with hA | hB
            · exact hgne hA
            · exact hnot hB

/-! ### Transfer-phase lemmas -/

theorem diffHash_setKey_calc (idx : List (String × IndexEntry)) (f : LocalFile)
    (driveId : String) :
    diffHash (setKey f.path ⟨f.path, driveId, calculateFileHash f, f.mtime⟩ idx) f
      = calculateFileHash f := by
  unfold diffHash
  rw [getKey_setKey_self]
  show (if f.mtime = f.mtime ∧ calculateFileHash f ≠ "" then calculateFileHash f
      else calculateFileHash f) = calculateFileHash f
  exact ite_self _

theorem refreshNeeded_setKey_mtime (idx : List (String × IndexEntry)) (f : LocalFile)
    (driveId hash : String) :
    refreshNeeded (setKey f.path ⟨f.path, driveId, hash, f.mtime⟩ idx) f = false := by
  unfold refreshNeeded
  rw [getKey_setKey_self]
  simp

theorem skipCheckM_writeEntries (e : Env) (f : LocalFile) (driveId : String)
    (st : SyncState) :
    skipCheckM (writeEntries e f driveId st).manifest (writeEntries e f driveId st).index f
      = true := by
  unfold skipCheckM writeEntries
  simp only
  rw [getKey_setKey_self]
  show (calculateFileHash f
      == diffHash (setKey f.path ⟨f.path, driveId, calculateFileHash f, f.mtime⟩ st.index) f)
      = true
  rw [diffHash_setKey_calc]
  simp

/-- Each transfer task touches the shared state only at its own path:
the manifest and index change at most at key `f.path` (by at most two
writes), kept gains at most `f.path`, and the trace gains at most one
transfer call, for `f.path`. -/
theorem runTask_shape (e : Env) (st : SyncState) (f : LocalFile) :
    ((runTask e st f).manifest = st.manifest
      ∨ (∃ v, (runTask e st f).manifest = setKey f.path v st.manifest)
      ∨ (∃ v w, (runTask e st f).manifest = setKey f.path w (setKey f.path v st.manifest)))
    ∧ ((runTask e st f).index = st.index
      ∨ ∃ v, (runTask e st f).index = setKey f.path v st.index)
    ∧ ((runTask e st f).kept = st.kept ∨ (runTask e st f).kept = f.path :: st.kept)
    ∧ ((runTask e st f).trace = st.trace
      ∨ (runTask e st f).trace = st.trace ++ [DriveCall.update f.path]
      ∨ (runTask e st f).trace = st.trace ++ [DriveCall.create f.path]) := by
  unfold runTask
  cases hm : getKey f.path st.manifest with
  | some r =>
    simp only
    by_cases hr : r.hash ≠ diffHash st.index f
    · rw [if_pos hr]
      unfold uploadFile
      rw [hm]
      by_cases hup : e.uploadOk f.path
      · simp only [if_pos hup]
        unfold writeEntries
        exact ⟨Or.inr (Or.inl ⟨_, rfl⟩), Or.inr ⟨_, rfl⟩, Or.inr (by trivial), Or.inr (Or.inl (by trivial))⟩
      · simp only [if_neg hup]
        exact ⟨Or.inl (by trivial), Or.inl (by trivial), Or.inl (by trivial), Or.inr (Or.inl (by trivial))⟩
    · rw [if_neg hr]
      by_cases hn : refreshNeeded st.index f
      · simp only [if_pos hn]
        exact ⟨Or.inl (by trivial), Or.inr ⟨_, rfl⟩, Or.inr (by trivial), Or.inl (by trivial)⟩
      · simp only [if_neg hn]
        exact ⟨Or.inl (by trivial), Or.inl (by trivial), Or.inr (by trivial), Or.inl (by trivial)⟩
  | none =>
    simp only
    unfold smartRecovery
    cases hl : e.listing f.parentPath (searchNameOf f) with
    | none =>
      simp only
      unfold uploadFile
      rw [hm]
      by_cases hup : e.uploadOk f.path
      · simp only [if_pos hup]
        unfold writeEntries
        exact ⟨Or.inr (Or.inl ⟨_, rfl⟩), Or.inr ⟨_, rfl⟩, Or.inr (by trivial), Or.inr (Or.inr (by trivial))⟩
      · simp only [if_neg hup]
        exact ⟨Or.inl (by trivial), Or.inl (by trivial), Or.inl (by trivial), Or.inr (Or.inr (by trivial))⟩
    | some existingFile =>
      simp only
      by_cases hutd : recoveryUpToDate f existingFile (diffHash st.index f)
      · simp only [if_pos hutd]
        rw [if_neg (by simp)]
        rw [if_neg (by rw [refreshNeeded_setKey_mtime]; simp)]
        exact ⟨Or.inr (Or.inl ⟨_, rfl⟩), Or.inr ⟨_, rfl⟩, Or.inr (by trivial), Or.inl (by trivial)⟩
      · simp only [if_neg hutd]
        by_cases hmm : ("mismatch" : String) ≠ diffHash st.index f
        · rw [if_pos hmm]
          unfold uploadFile
          rw [getKey_setKey_self]
          by_cases hup : e.uploadOk f.path
          · simp only [if_pos hup]
            unfold writeEntries
            exact ⟨Or.inr (Or.inr ⟨_, _, rfl⟩), Or.inr ⟨_, rfl⟩, Or.inr (by trivial),
              Or.inr (Or.inl (by trivial))⟩
          · simp only [if_neg hup]
            exact ⟨Or.inr (Or.inl ⟨_, rfl⟩), Or.inl (by trivial), Or.inl (by trivial), Or.inr (Or.inl (by trivial))⟩
        · rw [if_neg hmm]
          by_cases hn : refreshNeeded st.index f
          · simp only [if_pos hn]
            exact ⟨Or.inr (Or.inl ⟨_, rfl⟩), Or.inr ⟨_, rfl⟩, Or.inr (by trivial), Or.inl (by trivial)⟩
          · simp only [if_neg hn]
            exact ⟨Or.inr (Or.inl ⟨_, rfl⟩), Or.inl (by trivial), Or.inr (by trivial), Or.inl (by trivial)⟩

/-- A failed update of a file that already has a manifest entry with a
mismatched hash leaves everything unchanged except for the recorded
failed update call: in particular the path is NOT marked kept. -/
theorem runTask_failed_update (e : Env) (st : SyncState) (f : LocalFile) (r : RemoteEntry)
    (hm : getKey f.path st.manifest = some r)
    (hne : r.hash ≠ diffHash st.index f)
    (hup : e.uploadOk f.path = false) :
    runTask e st f = ⟨st.manifest, st.index, st.kept,
      st.trace ++ [DriveCall.update f.path]⟩ := by
  have hup' : ¬(e.uploadOk f.path = true) := by simp [hup]
  unfold runTask
  rw [hm]
  simp only
  rw [if_pos hne]
  unfold uploadFile
  rw [hm]
  simp only
  rw [if_neg hup', if_neg hup']

/-- A task whose transfer succeeds ends with its path in the manifest
keys, its path marked kept, and the resulting manifest/index pair passing
the skip check for the file (the idempotence invariant). -/
theorem runTask_uploadOk_spec (e : Env) (st : SyncState) (f : LocalFile)
    (hup : e.uploadOk f.path = true) :
    f.path ∈ keysOf (runTask e st f).manifest
    ∧ f.path ∈ (runTask e st f).kept
    ∧ skipCheckM (runTask e st f).manifest (runTask e st f).index f = true := by
  unfold runTask
  cases hm : getKey f.path st.manifest with
  | some r =>
    simp only
    by_cases hr : r.hash ≠ diffHash st.index f
    · rw [if_pos hr]
      unfold uploadFile
      rw [hm]
      simp only
      rw [if_pos hup, if_pos hup]
      refine ⟨?_, ?_, ?_⟩
      · exact (mem_keysOf_setKey _ _ _ _).mpr (Or.inl rfl)
      · exact List.mem_cons_self _ _
      · exact skipCheckM_writeEntries e f r.driveId _
    · rw [if_neg hr]
      push_neg at hr
      by_cases hn : refreshNeeded st.index f
      · rw [if_pos hn]
        refine ⟨?_, List.mem_cons_self _ _, ?_⟩
        · rw [mem_keysOf_iff, hm]; rfl
        · unfold skipCheckM
          rw [hm, diffHash_setKey_diffHash]
          simp [hr]
      · rw [if_neg hn]
        refine ⟨?_, List.mem_cons_self _ _, ?_⟩
        · rw [mem_keysOf_iff, hm]; rfl
        · unfold skipCheckM
          rw [hm]
          simp [hr]
  | none =>
    simp only
    unfold smartRecovery
    cases hl : e.listing f.parentPath (searchNameOf f) with
    | none =>
      simp only
      unfold uploadFile
      rw [hm]
      simp only
      rw [if_pos hup, if_pos hup]
      refine ⟨?_, List.mem_cons_self _ _, ?_⟩
      · exact (mem_keysOf_setKey _ _ _ _).mpr (Or.inl rfl)
      · exact skipCheckM_writeEntries e f (e.newId f.path) _
    | some existingFile =>
      simp only
      by_cases hutd : recoveryUpToDate f existingFile (diffHash st.index f)
      · simp only [if_pos hutd]
        rw [if_neg (by simp)]
        rw [if_neg (by rw [refreshNeeded_setKey_mtime]; simp)]
        refine ⟨?_, List.mem_cons_self _ _, ?_⟩
        · exact (mem_keysOf_setKey _ _ _ _).mpr (Or.inl rfl)
        · unfold skipCheckM
          rw [getKey_setKey_self]
          show ((⟨f.path, existingFile.id, diffHash st.index f, e.now⟩ : RemoteEntry).hash
            == diffHash (setKey f.path
              ⟨f.path, existingFile.id, diffHash st.index f, f.mtime⟩ st.index) f) = true
          rw [diffHash_setKey_diffHash]
          simp
      · simp only [if_neg hutd]
        by_cases hmm : ("mismatch" : String) ≠ diffHash st.index f
        · rw [if_pos hmm]
          unfold uploadFile
          rw [getKey_setKey_self]
          simp only
          rw [if_pos hup, if_pos hup]
          refine ⟨?_, List.mem_cons_self _ _, ?_⟩
          · exact (mem_keysOf_setKey _ _ _ _).mpr (Or.inl rfl)
          · exact skipCheckM_writeEntries e f
              (⟨f.path, existingFile.id, "mismatch", 0⟩ : RemoteEntry).driveId _
        · rw [if_neg hmm]
          push_neg at hmm
          simp only
          by_cases hn : refreshNeeded st.index f
          · rw [if_pos hn]
            refine ⟨?_, List.mem_cons_self _ _, ?_⟩
            · exact (mem_keysOf_setKey _ _ _ _).mpr (Or.inl rfl)
            · unfold skipCheckM
              rw [getKey_setKey_self]
              show ((⟨f.path, existingFile.id, "mismatch", 0⟩ : RemoteEntry).hash
                == diffHash (setKey f.path
                  ⟨f.path, existingFile.id, diffHash st.index f, f.mtime⟩ st.index) f) = true
              rw [diffHash_setKey_diffHash]
              simp [hmm]
          · rw [if_neg hn]
            refine ⟨?_, List.mem_cons_self _ _, ?_⟩
            · exact (mem_keysOf_setKey _ _ _ _).mpr (Or.inl rfl)
            · unfold skipCheckM
              rw [getKey_setKey_self]
              show ((⟨f.path, existingFile.id, "mismatch", 0⟩ : RemoteEntry).hash
                == diffHash st.index f) = true
              simp [hmm]

theorem runTask_manifest_frame (e : Env) (st : SyncState) (f : LocalFile) (q : String)
    (hq : q ≠ f.path) : getKey q (runTask e st f).manifest = getKey q st.manifest := by
  rcases (runTask_shape e st f).1 with h | ⟨v, h⟩ | ⟨v, w, h⟩ <;> rw [h]
  · exact getKey_setKey_ne _ _ hq
  · rw [getKey_setKey_ne _ _ hq, getKey_setKey_ne _ _ hq]

theorem runTask_index_frame (e : Env) (st : SyncState) (f : LocalFile) (q : String)
    (hq : q ≠ f.path) : getKey q (runTask e st f).index = getKey q st.index := by
  rcases (runTask_shape e st f).2.1 with h | ⟨v, h⟩ <;> rw [h]
  exact getKey_setKey_ne _ _ hq

theorem runTask_kept_mono (e : Env) (st : SyncState) (f : LocalFile) (q : String)
    (h : q ∈ st.kept) : q ∈ (runTask e st f).kept := by
  rcases (runTask_shape e st f).2.2.1 with hk | hk <;> rw [hk]
  · exact h
  · exact List.mem_cons_of_mem _ h

theorem runTask_kept_sub (e : Env) (st : SyncState) (f : LocalFile) (q : String)
    (h : q ∈ (runTask e st f).kept) : q ∈ st.kept ∨ q = f.path := by
  rcases (runTask_shape e st f).2.2.1 with hk | hk <;> rw [hk] at h
  · left; exact h
  · rcases List.mem_cons.mp h with h1 | h1
    · right; exact h1
    · left; exact h1

theorem runTask_keys_mono (e : Env) (st : SyncState) (f : LocalFile) (q : String)
    (h : q ∈ keysOf st.manifest) : q ∈ keysOf (runTask e st f).manifest := by
  rcases (runTask_shape e st f).1 with hk | ⟨v, hk⟩ | ⟨v, w, hk⟩ <;> rw [hk]
  · exact h
  · exact (mem_keysOf_setKey _ _ _ _).mpr (Or.inr h)
  · exact (mem_keysOf_setKey _ _ _ _).mpr
      (Or.inr ((mem_keysOf_setKey _ _ _ _).mpr (Or.inr h)))

theorem runTask_keys_sub (e : Env) (st : SyncState) (f : LocalFile) (q : String)
    (h : q ∈ keysOf (runTask e st f).manifest) : q ∈ keysOf st.manifest ∨ q = f.path := by
  rcases (runTask_shape e st f).1 with hk | ⟨v, hk⟩ | ⟨v, w, hk⟩ <;> rw [hk] at h
  · left; exact h
  · rcases (mem_keysOf_setKey _ _ _ _).mp h with h1 | h1
    · right; exact h1
    · left; exact h1
  · rcases (mem_keysOf_setKey _ _ _ _).mp h with h1 | h1
    · right; exact h1
    · rcases (mem_keysOf_setKey _ _ _ _).mp h1 with h2 | h2
      · right; exact h2
      · left; exact h2

theorem runTask_nodup (e : Env) (st : SyncState) (f : LocalFile)
    (hm : (keysOf st.manifest).Nodup) (hi : (keysOf st.index).Nodup) :
    (keysOf (runTask e st f).manifest).Nodup ∧ (keysOf (runTask e st f).index).Nodup := by
  constructor
  · rcases (runTask_shape e st f).1 with hk | ⟨v, hk⟩ | ⟨v, w, hk⟩ <;> rw [hk]
    · exact hm
    · exact nodup_keysOf_setKey _ _ _ hm
    · exact nodup_keysOf_setKey _ _ _ (nodup_keysOf_setKey _ _ _ hm)
  · rcases (runTask_shape e st f).2.1 with hk | ⟨v, hk⟩ <;> rw [hk]
    · exact hi
    · exact nodup_keysOf_setKey _ _ _ hi

theorem runTask_trace_sub (e : Env) (st : SyncState) (f : LocalFile) (ev : DriveCall)
    (h : ev ∈ (runTask e st f).trace) :
    ev ∈ st.trace ∨ ev = DriveCall.update f.path ∨ ev = DriveCall.create f.path := by
  rcases (runTask_shape e st f).2.2.2 with hk | hk | hk <;> rw [hk] at h
  · left; exact h
  · rcases List.mem_append.mp h with h1 | h1
    · left; exact h1
    · right; left; simpa using h1
  · rcases List.mem_append.mp h with h1 | h1
    · left; exact h1
    · right; right; simpa using h1

/-! Fold-level transfer lemmas. -/

theorem transfer_foldl_manifest_frame (e : Env) (L : List LocalFile) :
    ∀ (st : SyncState) (q : String), q ∉ pathsOf L →
      getKey q (L.foldl (runTask e) st).manifest = getKey q st.manifest := by
  induction L with
  | nil => intro st q _; rfl
  | cons g rest ih =>
    intro st q h
    simp only [pathsOf, List.map_cons, List.mem_cons] at h
    push_neg at h
    simp only [List.foldl_cons]
    rw [ih _ q (by simpa [pathsOf] using h.2)]
    exact runTask_manifest_frame e st g q h.1

theorem transfer_foldl_index_frame (e : Env) (L : List LocalFile) :
    ∀ (st : SyncState) (q : String), q ∉ pathsOf L →
      getKey q (L.foldl (runTask e) st).index = getKey q st.index := by
  induction L with
  | nil => intro st q _; rfl
  | cons g rest ih =>
    intro st q h
    simp only [pathsOf, List.map_cons, List.mem_cons] at h
    push_neg at h
    simp only [List.foldl_cons]
    rw [ih _ q (by simpa [pathsOf] using h.2)]
    exact runTask_index_frame e st g q h.1

theorem transfer_foldl_kept_mono (e : Env) (L : List LocalFile) :
    ∀ (st : SyncState) (q : String), q ∈ st.kept → q ∈ (L.foldl (runTask e) st).kept := by
  induction L with
  | nil => intro st q h; simpa using h
  | cons g rest ih =>
    intro st q h
    simp only [List.foldl_cons]
    exact ih _ q (runTask_kept_mono e st g q h)

theorem transfer_foldl_kept_sub (e : Env) (L : List LocalFile) :
    ∀ (st : SyncState) (q : String), q ∈ (L.foldl (runTask e) st).kept →
      q ∈ st.kept ∨ q ∈ pathsOf L := by
  induction L with
  | nil => intro st q h; left; simpa using h
  | cons g rest ih =>
    intro st q h
    simp only [List.foldl_cons] at h
    rcases ih _ q h with h1 | h1
    · rcases runTask_kept_sub e st g q h1 with h2 | h2
      · left; exact h2
      · right; simp [pathsOf, h2]
    · right
      simp only [pathsOf, List.map_cons, List.mem_cons]
      right; exact h1

theorem transfer_foldl_keys_mono (e : Env) (L : List LocalFile) :
    ∀ (st : SyncState) (q : String), q ∈ keysOf st.manifest →
      q ∈ keysOf (L.foldl (runTask e) st).manifest := by
  induction L with
  | nil => intro st q h; simpa using h
  | cons g rest ih =>
    intro st q h
    simp only [List.foldl_cons]
    exact ih _ q (runTask_keys_mono e st g q h)

theorem transfer_foldl_keys_sub (e : Env) (L : List LocalFile) :
    ∀ (st : SyncState) (q : String), q ∈ keysOf (L.foldl (runTask e) st).manifest →
      q ∈ keysOf st.manifest ∨ q ∈ pathsOf L := by
  induction L with
  | nil => intro st q h; left; simpa using h
  | cons g rest ih =>
    intro st q h
    simp only [List.foldl_cons] at h
    rcases ih _ q h with h1 | h1
    · rcases runTask_keys_sub e st g q h1 with h2 | h2
      · left; exact h2
      · right; simp [pathsOf, h2]
    · right
      simp only [pathsOf, List.map_cons, List.mem_cons]
      right; exact h1

theorem transfer_foldl_nodup (e : Env) (L : List LocalFile) :
    ∀ st : SyncState, (keysOf st.manifest).Nodup → (keysOf st.index).Nodup →
      (keysOf (L.foldl (runTask e) st).manifest).Nodup
      ∧ (keysOf (L.foldl (runTask e) st).index).Nodup := by
  induction L with
  | nil => intro st hm hi; exact ⟨hm, hi⟩
  | cons g rest ih =>
    intro st hm hi
    simp only [List.foldl_cons]
    obtain ⟨hm', hi'⟩ := runTask_nodup e st g hm hi
    exact ih _ hm' hi'

theorem transfer_foldl_trace_sub (e : Env) (L : List LocalFile) :
    ∀ (st : SyncState) (ev : DriveCall), ev ∈ (L.foldl (runTask e) st).trace →
      ev ∈ st.trace
      ∨ ∃ p ∈ pathsOf L, ev = DriveCall.update p ∨ ev = DriveCall.create p := by
  induction L with
  | nil => intro st ev h; left; simpa using h
  | cons g rest ih =>
    intro st ev h
    simp only [List.foldl_cons] at h
    rcases ih _ ev h with h1 | ⟨p, hp, h1⟩
    · rcases runTask_trace_sub e st g ev h1 with h2 | h2 | h2
      · left; exact h2
      · right; exact ⟨g.path, by simp [pathsOf], Or.inl h2⟩
      · right; exact ⟨g.path, by simp [pathsOf], Or.inr h2⟩
    · right
      refine ⟨p, ?_, h1⟩
      simp only [pathsOf, List.map_cons, List.mem_cons]
      right
      simpa [pathsOf] using hp

/-- Every file of a pathwise-`Nodup` transfer list whose upload succeeds
ends the transfer phase with its path in the manifest keys, its path
kept, and a manifest/index pair passing the skip check. -/
theorem transfer_foldl_uploadOk (e : Env) (L : List LocalFile) :
    ∀ st : SyncState, (pathsOf L).Nodup → ∀ f ∈ L, e.uploadOk f.path = true →
      f.path ∈ keysOf (L.foldl (runTask e) st).manifest
      ∧ f.path ∈ (L.foldl (runTask e) st).kept
      ∧ skipCheckM (L.foldl (runTask e) st).manifest
          (L.foldl (runTask e) st).index f = true := by
  induction L with
  | nil => intro st _ f hf; exact absurd hf (List.not_mem_nil f)
  | cons g rest ih =>
    intro st hnd f hf hup
    simp only [pathsOf, List.map_cons, List.nodup_cons] at hnd
    simp only [List.foldl_cons]
    rcases List.mem_cons.mp hf with hfg | hfr
    · subst hfg
      obtain ⟨h1, h2, h3⟩ := runTask_uploadOk_spec e st f hup
      have hfr : f.path ∉ pathsOf rest := hnd.1
      refine ⟨transfer_foldl_keys_mono e rest _ f.path h1,
        transfer_foldl_kept_mono e rest _ f.path h2, ?_⟩
      rw [skipCheckM_congr f (transfer_foldl_manifest_frame e rest _ f.path hfr)
        (transfer_foldl_index_frame e rest _ f.path hfr)]
      exact h3
    · exact ih _ hnd.2 f hfr hup

/-- A file of the transfer list with an existing mismatched manifest entry
whose upload fails is not marked kept, and its manifest/index entries
survive the phase untouched. -/
theorem transfer_foldl_failed (e : Env) (L : List LocalFile) :
    ∀ (st : SyncState) (f : LocalFile) (r : RemoteEntry), (pathsOf L).Nodup → f ∈ L →
      getKey f.path st.manifest = some r → r.hash ≠ diffHash st.index f →
      e.uploadOk f.path = false → f.path ∉ st.kept →
      f.path ∉ (L.foldl (runTask e) st).kept
      ∧ getKey f.path (L.foldl (runTask e) st).manifest = some r
      ∧ getKey f.path (L.foldl (runTask e) st).index = getKey f.path st.index := by
  induction L with
  | nil => intro st f r _ hf; exact absurd hf (List.not_mem_nil f)
  | cons g rest ih =>
    intro st f r hnd hf hm hne hup hk
    simp only [pathsOf, List.map_cons, List.nodup_cons] at hnd
    simp only [List.foldl_cons]
    rcases List.mem_cons.mp hf with hfg | hfr
    · subst hfg
      rw [runTask_failed_update e st f r hm hne hup]
      have hfrest : f.path ∉ pathsOf rest := hnd.1
      refine ⟨?_, ?_, ?_⟩
      · intro hmem
        rcases transfer_foldl_kept_sub e rest _ f.path hmem with h1 | h1
        · exact hk h1
        · exact hfrest h1
      · rw [transfer_foldl_manifest_frame e rest _ f.path hfrest]
        exact hm
      · rw [transfer_foldl_index_frame e rest _ f.path hfrest]
    · have hgne : f.path ≠ g.path := by
        intro hh
        exact hnd.1 (hh ▸ List.mem_map_of_mem LocalFile.path hfr)
      have hm' : getKey f.path (runTask e st g).manifest = some r := by
        rw [runTask_manifest_frame e st g f.path hgne]
        exact hm
      have hne' : r.hash ≠ diffHash (runTask e st g).index f := by
        rw [diffHash_congr f (runTask_index_frame e st g f.path hgne)]
        exact hne
      have hk' : f.path ∉ (runTask e st g).kept := by
        intro hmem
        rcases runTask_kept_sub e st g f.path hmem with h1 | h1
        · exact hk h1
        · exact hgne h1
      obtain ⟨ha, hb, hc⟩ := ih (runTask e st g) f r hnd.2 hfr hm' hne' hup hk'
      refine ⟨ha, hb, ?_⟩
      rw [hc, runTask_index_frame e st g f.path hgne]

/-! ### Cleaning-phase lemmas -/

theorem cleanStep_shape (e : Env) (st : SyncState) (p : String) :
    (cleanStep e st p).kept = st.kept
    ∧ (((cleanStep e st p).manifest = st.manifest ∧ (cleanStep e st p).index = st.index)
      ∨ ((cleanStep e st p).manifest = delKey p st.manifest
          ∧ (cleanStep e st p).index = delKey p st.index))
    ∧ ((cleanStep e st p).trace = st.trace
      ∨ (cleanStep e st p).trace = st.trace ++ [DriveCall.softDelete p]) := by
  unfold cleanStep
  by_cases h1 : st.kept.contains p
  · rw [if_pos h1]
    exact ⟨rfl, Or.inl ⟨rfl, rfl⟩, Or.inl rfl⟩
  · rw [if_neg h1]
    by_cases h2 : isExcluded e.excludedFolders p
    · rw [if_pos h2]
      exact ⟨rfl, Or.inl ⟨rfl, rfl⟩, Or.inl rfl⟩
    · rw [if_neg h2]
      cases hm : getKey p st.manifest with
      | none => exact ⟨rfl, Or.inl ⟨rfl, rfl⟩, Or.inl rfl⟩
      | some entry =>
        simp only
        by_cases hd : e.deleteOk p
        · rw [if_pos hd]
          exact ⟨by trivial, Or.inr ⟨by trivial, by trivial⟩, Or.inr (by trivial)⟩
        · rw [if_neg hd]
          exact ⟨by trivial, Or.inl ⟨by trivial, by trivial⟩, Or.inr (by trivial)⟩

theorem cleanStep_protected (e : Env) (st : SyncState) (p : String)
    (h : p ∈ st.kept ∨ isExcluded e.excludedFolders p = true) :
    cleanStep e st p = st := by
  unfold cleanStep
  by_cases h1 : st.kept.contains p
  · rw [if_pos h1]
  · rw [if_neg h1]
    have h2 : isExcluded e.excludedFolders p = true := by
      rcases h with h | h
      · exact absurd (List.elem_iff.mpr h) h1
      · exact h
    rw [if_pos h2]

/-- An orphan deletion step on a present, unprotected manifest path with a
succeeding delete. -/
theorem cleanStep_delete (e : Env) (st : SyncState) (p : String) (entry : RemoteEntry)
    (hk : p ∉ st.kept) (hx : isExcluded e.excludedFolders p = false)
    (hm : getKey p st.manifest = some entry) (hd : e.deleteOk p = true) :
    cleanStep e st p = ⟨delKey p st.manifest, delKey p st.index, st.kept,
      st.trace ++ [DriveCall.softDelete p]⟩ := by
  have h1 : ¬(st.kept.contains p = true) := by
    intro hc
    exact hk (List.elem_iff.mp hc)
  unfold cleanStep
  rw [if_neg h1, if_neg (by rw [hx]; simp), hm]
  simp only
  rw [if_pos hd]

theorem clean_foldl_kept (e : Env) (ks : List String) :
    ∀ st : SyncState, (ks.foldl (cleanStep e) st).kept = st.kept := by
  induction ks with
  | nil => intro st; rfl
  | cons q rest ih =>
    intro st
    simp only [List.foldl_cons]
    rw [ih _, (cleanStep_shape e st q).1]

theorem clean_foldl_protected (e : Env) (ks : List String) :
    ∀ (st : SyncState) (p : String), (p ∈ st.kept ∨ isExcluded e.excludedFolders p = true) →
      getKey p (ks.foldl (cleanStep e) st).manifest = getKey p st.manifest
      ∧ getKey p (ks.foldl (cleanStep e) st).index = getKey p st.index := by
  induction ks with
  | nil => intro st p _; exact ⟨rfl, rfl⟩
  | cons q rest ih =>
    intro st p hp
    simp only [List.foldl_cons]
    by_cases hqp : q = p
    · subst hqp
      rw [cleanStep_protected e st q hp]
      exact ih st q hp
    · have hp' : p ∈ (cleanStep e st q).kept ∨ isExcluded e.excludedFolders p = true := by
        rcases hp with hp | hp
        · left; rw [(cleanStep_shape e st q).1]; exact hp
        · right; exact hp
      obtain ⟨ha, hb⟩ := ih (cleanStep e st q) p hp'
      rcases (cleanStep_shape e st q).2.1 with ⟨hmm, hii⟩ | ⟨hmm, hii⟩
      · rw [ha, hb, hmm, hii]
        exact ⟨rfl, rfl⟩
      · rw [ha, hb, hmm, hii,
          getKey_delKey_ne st.manifest (fun hh => hqp hh.symm),
          getKey_delKey_ne st.index (fun hh => hqp hh.symm)]
        exact ⟨rfl, rfl⟩

theorem clean_foldl_none (e : Env) (ks : List String) :
    ∀ (st : SyncState) (p : String),
      getKey p st.manifest = none → getKey p st.index = none →
      getKey p (ks.foldl (cleanStep e) st).manifest = none
      ∧ getKey p (ks.foldl (cleanStep e) st).index = none := by
  induction ks with
  | nil => intro st p hm hi; exact ⟨hm, hi⟩
  | cons q rest ih =>
    intro st p hm hi
    simp only [List.foldl_cons]
    refine ih _ p ?_ ?_
    · rcases (cleanStep_shape e st q).2.1 with ⟨hmm, _⟩ | ⟨hmm, _⟩ <;> rw [hmm]
      · exact hm
      · exact getKey_delKey_none q p st.manifest hm
    · rcases (cleanStep_shape e st q).2.1 with ⟨_, hii⟩ | ⟨_, hii⟩ <;> rw [hii]
      · exact hi
      · exact getKey_delKey_none q p st.index hi

theorem clean_foldl_trace_mono (e : Env) (ks : List String) :
    ∀ (st : SyncState) (ev : DriveCall), ev ∈ st.trace →
      ev ∈ (ks.foldl (cleanStep e) st).trace := by
  induction ks with
  | nil => intro st ev h; simpa using h
  | cons q rest ih =>
    intro st ev h
    simp only [List.foldl_cons]
    refine ih _ ev ?_
    rcases (cleanStep_shape e st q).2.2 with ht | ht <;> rw [ht]
    · exact h
    · exact List.mem_append_left _ h

theorem clean_foldl_trace_sub (e : Env) (ks : List String) :
    ∀ (st : SyncState) (ev : DriveCall), ev ∈ (ks.foldl (cleanStep e) st).trace →
      ev ∈ st.trace ∨ ∃ q, ev = DriveCall.softDelete q := by
  induction ks with
  | nil => intro st ev h; left; simpa using h
  | cons q rest ih =>
    intro st ev h
    simp only [List.foldl_cons] at h
    rcases ih _ ev h with h1 | h1
    · rcases (cleanStep_shape e st q).2.2 with ht | ht <;> rw [ht] at h1
      · left; exact h1
      · rcases List.mem_append.mp h1 with h2 | h2
        · left; exact h2
        · right; exact ⟨q, by simpa using h2⟩
    · right; exact h1

theorem clean_foldl_keys_sub (e : Env) (ks : List String) :
    ∀ (st : SyncState) (p : String), p ∈ keysOf (ks.foldl (cleanStep e) st).manifest →
      p ∈ keysOf st.manifest := by
  induction ks with
  | nil => intro st p h; simpa using h
  | cons q rest ih =>
    intro st p h
    simp only [List.foldl_cons] at h
    have h1 := ih _ p h
    rcases (cleanStep_shape e st q).2.1 with ⟨hmm, _⟩ | ⟨hmm, _⟩ <;> rw [hmm] at h1
    · exact h1
    · exact keysOf_delKey_subset q p st.manifest h1

theorem clean_foldl_nodup (e : Env) (ks : List String) :
    ∀ st : SyncState, (keysOf st.manifest).Nodup → (keysOf st.index).Nodup →
      (keysOf (ks.foldl (cleanStep e) st).manifest).Nodup
      ∧ (keysOf (ks.foldl (cleanStep e) st).index).Nodup := by
  induction ks with
  | nil => intro st hm hi; exact ⟨hm, hi⟩
  | cons q rest ih =>
    intro st hm hi
    simp only [List.foldl_cons]
    rcases (cleanStep_shape e st q).2.1 with ⟨hmm, hii⟩ | ⟨hmm, hii⟩
    · exact ih _ (by rw [hmm]; exact hm) (by rw [hii]; exact hi)
    · exact ih _ (by rw [hmm]; exact nodup_keysOf_delKey q _ hm)
        (by rw [hii]; exact nodup_keysOf_delKey q _ hi)

/-- An orphan path present in the manifest whose scoped soft delete
succeeds is removed from both maps, with the call recorded. -/
theorem clean_foldl_orphan (e : Env) (ks : List String) :
    ∀ (st : SyncState) (p : String), p ∈ ks → p ∉ st.kept →
      isExcluded e.excludedFolders p = false → e.deleteOk p = true →
      (keysOf st.manifest).Nodup → (keysOf st.index).Nodup →
      p ∈ keysOf st.manifest →
      getKey p (ks.foldl (cleanStep e) st).manifest = none
      ∧ getKey p (ks.foldl (cleanStep e) st).index = none
      ∧ DriveCall.softDelete p ∈ (ks.foldl (cleanStep e) st).trace := by
  induction ks with
  | nil => intro st p hp; exact absurd hp (List.not_mem_nil p)
  | cons q rest ih =>
    intro st p hp hk hx hd hm hi hmem
    simp only [List.foldl_cons]
    by_cases hqp : q = p
    · subst hqp
      obtain ⟨entry, hentry⟩ := Option.isSome_iff_exists.mp ((mem_keysOf_iff q _).mp hmem)
      rw [cleanStep_delete e st q entry hk hx hentry hd]
      have hnone := clean_foldl_none e rest
        ⟨delKey q st.manifest, delKey q st.index, st.kept,
          st.trace ++ [DriveCall.softDelete q]⟩ q
        (getKey_delKey_self q st.manifest hm) (getKey_delKey_self q st.index hi)
      refine ⟨hnone.1, hnone.2, ?_⟩
      refine clean_foldl_trace_mono e rest _ _ ?_
      exact List.mem_append_right _ (List.mem_singleton_self _)
    · have hp' : p ∈ rest := by
        rcases List.mem_cons.mp hp with h | h
        · exact absurd h.symm hqp
        · exact h
      have hkept' : p ∉ (cleanStep e st q).kept := by
        rw [(cleanStep_shape e st q).1]
        exact hk
      have hget : getKey p (cleanStep e st q).manifest = getKey p st.manifest := by
        rcases (cleanStep_shape e st q).2.1 with ⟨hmm, _⟩ | ⟨hmm, _⟩ <;> rw [hmm]
        exact getKey_delKey_ne st.manifest (fun hh => hqp hh.symm)
      have hmem' : p ∈ keysOf (cleanStep e st q).manifest := by
        rw [mem_keysOf_iff, hget]
        exact (mem_keysOf_iff p _).mp hmem
      rcases (cleanStep_shape e st q).2.1 with ⟨hmm, hii⟩ | ⟨hmm, hii⟩
      · exact ih _ p hp' hkept' hx hd (by rw [hmm]; exact hm) (by rw [hii]; exact hi) hmem'
      · exact ih _ p hp' hkept' hx hd (by rw [hmm]; exact nodup_keysOf_delKey q _ hm)
          (by rw [hii]; exact nodup_keysOf_delKey q _ hi) hmem'

/-! ### Whole-run support lemmas -/

theorem diffStep_index_shape (e : Env) (acc : DiffState) (f : LocalFile) :
    (diffStep e acc f).index = acc.index
    ∨ ∃ v, (diffStep e acc f).index = setKey f.path v acc.index := by
  cases hsc : skipCheckM e.manifest0 acc.index f
  · rw [diffStep_upload_eq e acc f hsc]
    left; rfl
  · obtain ⟨r, hm, hr⟩ := (skipCheckM_true_iff _ _ _).mp hsc
    rw [diffStep_skip_eq e acc f r hm hr]
    by_cases hn : refreshNeeded acc.index f
    · right
      refine ⟨⟨f.path, r.driveId, diffHash acc.index f, f.mtime⟩, ?_⟩
      show (if refreshNeeded acc.index f then
          setKey f.path ⟨f.path, r.driveId, diffHash acc.index f, f.mtime⟩ acc.index
        else acc.index) = _
      rw [if_pos hn]
    · left
      show (if refreshNeeded acc.index f then
          setKey f.path ⟨f.path, r.driveId, diffHash acc.index f, f.mtime⟩ acc.index
        else acc.index) = acc.index
      rw [if_neg hn]

theorem diff_foldl_index_nodup (e : Env) (L : List LocalFile) :
    ∀ acc : DiffState, (keysOf acc.index).Nodup →
      (keysOf (L.foldl (diffStep e) acc).index).Nodup := by
  induction L with
  | nil => intro acc h; simpa using h
  | cons g rest ih =>
    intro acc h
    simp only [List.foldl_cons]
    refine ih _ ?_
    rcases diffStep_index_shape e acc g with hs | ⟨v, hs⟩ <;> rw [hs]
    · exact h
    · exact nodup_keysOf_setKey _ _ _ h

theorem diff_foldl_toUpload_sublist (e : Env) (L : List LocalFile) :
    ∀ acc : DiffState, ∃ s : List LocalFile,
      (L.foldl (diffStep e) acc).toUpload = acc.toUpload ++ s ∧ s.Sublist L := by
  induction L with
  | nil => intro acc; exact ⟨[], by simp, List.nil_sublist []⟩
  | cons g rest ih =>
    intro acc
    obtain ⟨s, hs, hsub⟩ := ih (diffStep e acc g)
    rcases (diffStep_components e acc g).2 with ht | ht
    · refine ⟨s, ?_, hsub.cons g⟩
      rw [List.foldl_cons, hs, ht]
    · refine ⟨g :: s, ?_, hsub.cons₂ g⟩
      rw [List.foldl_cons, hs, ht]
      simp

theorem diffPass_toUpload_paths_nodup (e : Env)
    (hnd : (pathsOf (filesToSync e)).Nodup) : (pathsOf (diffPass e).toUpload).Nodup := by
  obtain ⟨s, hs, hsub⟩ :=
    diff_foldl_toUpload_sublist e (filesToSync e) ⟨e.syncIndex0, [], []⟩
  unfold diffPass
  rw [show ((filesToSync e).foldl (diffStep e) ⟨e.syncIndex0, [], []⟩).toUpload = s by
    simpa using hs]
  exact List.Nodup.sublist (hsub.map LocalFile.path) hnd

theorem filesToSync_not_excluded (e : Env) (f : LocalFile) (hf : f ∈ filesToSync e) :
    isExcluded e.excludedFolders f.path = false := by
  unfold filesToSync at hf
  have hinc := (List.mem_filter.mp hf).2
  by_cases hx : isExcluded e.excludedFolders f.path
  · unfold includeFile at hinc
    rw [if_pos hx] at hinc
    exact absurd hinc (by simp)
  · simpa using hx

theorem skipCheckM_false_of_ne (m : List (String × RemoteEntry))
    (idx : List (String × IndexEntry)) (f : LocalFile) (r : RemoteEntry)
    (hm : getKey f.path m = some r) (hne : r.hash ≠ diffHash idx f) :
    skipCheckM m idx f = false := by
  unfold skipCheckM
  rw [hm]
  simp [hne]

/-- After a fully successful run, every filtered file passes the skip
check against the final manifest/index pair (hence the spec's invariant
`LocalIndexEntry[p].hash == ManifestEntry[p].hash` in the sense that the
stored manifest hash equals the hash the next diff will compute). -/
theorem syncVault_skipReady (e : Env)
    (hnd : (pathsOf (filesToSync e)).Nodup)
    (hu : ∀ f ∈ (diffPass e).toUpload, e.uploadOk f.path = true) :
    ∀ f ∈ filesToSync e,
      skipCheckM (syncVault e).manifest (syncVault e).index f = true := by
  intro f hf
  have hupnd := diffPass_toUpload_paths_nodup e hnd
  cases hsc : skipCheckM e.manifest0 e.syncIndex0 f with
  | true =>
    obtain ⟨hkept, hnup, hdh, _⟩ :=
      ((diff_foldl_spec e (filesToSync e) ⟨e.syncIndex0, [], []⟩ hnd f hf).1 hsc)
    have hnup' : f.path ∉ pathsOf (diffPass e).toUpload := hnup (by simp [pathsOf])
    have hmidm : getKey f.path (transferPass e (diffPass e)).manifest
        = getKey f.path e.manifest0 :=
      transfer_foldl_manifest_frame e (diffPass e).toUpload _ f.path hnup'
    have hmidi : getKey f.path (transferPass e (diffPass e)).index
        = getKey f.path (diffPass e).index :=
      transfer_foldl_index_frame e (diffPass e).toUpload _ f.path hnup'
    have hmidkept : f.path ∈ (transferPass e (diffPass e)).kept :=
      transfer_foldl_kept_mono e (diffPass e).toUpload _ f.path hkept
    obtain ⟨hfm, hfi⟩ := clean_foldl_protected e
      (keysOf (transferPass e (diffPass e)).manifest)
      (transferPass e (diffPass e)) f.path (Or.inl hmidkept)
    have hfinm : getKey f.path (syncVault e).manifest = getKey f.path e.manifest0 := by
      show getKey f.path ((keysOf (transferPass e (diffPass e)).manifest).foldl
          (cleanStep e) (transferPass e (diffPass e))).manifest = getKey f.path e.manifest0
      rw [hfm]
      exact hmidm
    have hfini : getKey f.path (syncVault e).index
        = getKey f.path (diffPass e).index := by
      show getKey f.path ((keysOf (transferPass e (diffPass e)).manifest).foldl
          (cleanStep e) (transferPass e (diffPass e))).index
          = getKey f.path (diffPass e).index
      rw [hfi]
      exact hmidi
    have hdh' : diffHash (diffPass e).index f = diffHash e.syncIndex0 f := hdh
    calc skipCheckM (syncVault e).manifest (syncVault e).index f
        = skipCheckM e.manifest0 (diffPass e).index f := skipCheckM_congr f hfinm hfini
      _ = skipCheckM e.manifest0 e.syncIndex0 f := skipCheckM_congr_hash f hdh'
      _ = true := hsc
  | false =>
    have hfu : f ∈ (diffPass e).toUpload :=
      ((diff_foldl_spec e (filesToSync e) ⟨e.syncIndex0, [], []⟩ hnd f hf).2 hsc).1
    obtain ⟨_, hmidkept, hmidsc⟩ :=
      transfer_foldl_uploadOk e (diffPass e).toUpload
        ⟨e.manifest0, (diffPass e).index, (diffPass e).kept, []⟩ hupnd f hfu (hu f hfu)
    obtain ⟨hfm, hfi⟩ := clean_foldl_protected e
      (keysOf (transferPass e (diffPass e)).manifest)
      (transferPass e (diffPass e)) f.path (Or.inl hmidkept)
    have hfinm : getKey f.path (syncVault e).manifest
        = getKey f.path (transferPass e (diffPass e)).manifest := by
      show getKey f.path ((keysOf (transferPass e (diffPass e)).manifest).foldl
          (cleanStep e) (transferPass e (diffPass e))).manifest = _
      exact hfm
    have hfini : getKey f.path (syncVault e).index
        = getKey f.path (transferPass e (diffPass e)).index := by
      show getKey f.path ((keysOf (transferPass e (diffPass e)).manifest).foldl
          (cleanStep e) (transferPass e (diffPass e))).index = _
      exact hfi
    calc skipCheckM (syncVault e).manifest (syncVault e).index f
        = skipCheckM (transferPass e (diffPass e)).manifest
            (transferPass e (diffPass e)).index f := skipCheckM_congr f hfinm hfini
      _ = true := hmidsc

/-- C3: for a filtered file whose (cache-trusting) local hash equals the
remote-manifest hash, the run makes no create or update call for its
path, marks it kept, and leaves it with an index entry whose stored mtime
is the file's current one. -/
theorem syncVault_hash_skip (e : Env) (f : LocalFile) (r : RemoteEntry)
    (hnd : (pathsOf (filesToSync e)).Nodup)
    (hf : f ∈ filesToSync e)
    (hm : getKey f.path e.manifest0 = some r)
    (hr : r.hash = diffHash e.syncIndex0 f) :
    (∀ ev ∈ (syncVault e).trace,
        ev ≠ DriveCall.create f.path ∧ ev ≠ DriveCall.update f.path)
    ∧ f.path ∈ (syncVault e).kept
    ∧ (∃ c, getKey f.path (syncVault e).index = some c ∧ c.lastModified = f.mtime) := by
  have hsc : skipCheckM e.manifest0 e.syncIndex0 f = true :=
    (skipCheckM_true_iff _ _ _).mpr ⟨r, hm, hr⟩
  obtain ⟨hkept, hnup, _, hex⟩ :=
    ((diff_foldl_spec e (filesToSync e) ⟨e.syncIndex0, [], []⟩ hnd f hf).1 hsc)
  have hnup' : f.path ∉ pathsOf (diffPass e).toUpload := hnup (by simp [pathsOf])
  have hmidkept : f.path ∈ (transferPass e (diffPass e)).kept :=
    transfer_foldl_kept_mono e (diffPass e).toUpload _ f.path hkept
  refine ⟨?_, ?_, ?_⟩
  · intro ev hev
    rcases clean_foldl_trace_sub e (keysOf (transferPass e (diffPass e)).manifest)
        (transferPass e (diffPass e)) ev hev with h1 | ⟨q, h1⟩
    · rcases transfer_foldl_trace_sub e (diffPass e).toUpload
          ⟨e.manifest0, (diffPass e).index, (diffPass e).kept, []⟩ ev h1 with h2 | ⟨p, hp, h2⟩
      · exact absurd h2 (List.not_mem_nil ev)
      · have hpne : p ≠ f.path := fun hh => hnup' (hh ▸ hp)
        rcases h2 with h2 | h2 <;> rw [h2] <;>
          exact ⟨by simp [hpne], by simp [hpne]⟩
    · rw [h1]
      exact ⟨by simp, by simp⟩
  · rw [show (syncVault e).kept = (transferPass e (diffPass e)).kept from
      clean_foldl_kept e _ _]
    exact hmidkept
  · obtain ⟨c, hc, hcm⟩ := hex
    obtain ⟨_, hfi⟩ := clean_foldl_protected e
      (keysOf (transferPass e (diffPass e)).manifest)
      (transferPass e (diffPass e)) f.path (Or.inl hmidkept)
    refine ⟨c, ?_, hcm⟩
    have h3 : getKey f.path (syncVault e).index
        = getKey f.path (transferPass e (diffPass e)).index := by
      show getKey f.path ((keysOf (transferPass e (diffPass e)).manifest).foldl
          (cleanStep e) (transferPass e (diffPass e))).index = _
      exact hfi
    have h4 : getKey f.path (transferPass e (diffPass e)).index
        = getKey f.path (diffPass e).index :=
      transfer_foldl_index_frame e (diffPass e).toUpload
        ⟨e.manifest0, (diffPass e).index, (diffPass e).kept, []⟩ f.path hnup'
    rw [h3, h4]
    exact hc

/-- Witness for C3 on a concrete environment: an unchanged markdown file
with a matching manifest hash is skipped, kept, and its index entry holds
the current mtime. -/
theorem syncVault_hash_skip_witness :
    (∀ ev ∈ (syncVault
        { files := [⟨"A.md", "", "A.md", "A", "md", 5, "h1", "", []⟩]
          excludedFolders := []
          syncPDFs := false, syncCanvas := false, syncImages := false
          syncIndex0 := []
          manifest0 := [("A.md", ⟨"A.md", "idA", "h1", 0⟩)]
          listing := fun _ _ => none
          uploadOk := fun _ => true
          deleteOk := fun _ => true
          newId := fun _ => "n"
          now := 9 }).trace,
        ev ≠ DriveCall.create "A.md" ∧ ev ≠ DriveCall.update "A.md")
    ∧ "A.md" ∈ (syncVault
        { files := [⟨"A.md", "", "A.md", "A", "md", 5, "h1", "", []⟩]
          excludedFolders := []
          syncPDFs := false, syncCanvas := false, syncImages := false
          syncIndex0 := []
          manifest0 := [("A.md", ⟨"A.md", "idA", "h1", 0⟩)]
          listing := fun _ _ => none
          uploadOk := fun _ => true
          deleteOk := fun _ => true
          newId := fun _ => "n"
          now := 9 }).kept
    ∧ (∃ c, getKey "A.md" (syncVault
        { files := [⟨"A.md", "", "A.md", "A", "md", 5, "h1", "", []⟩]
          excludedFolders := []
          syncPDFs := false, syncCanvas := false, syncImages := false
          syncIndex0 := []
          manifest0 := [("A.md", ⟨"A.md", "idA", "h1", 0⟩)]
          listing := fun _ _ => none
          uploadOk := fun _ => true
          deleteOk := fun _ => true
          newId := fun _ => "n"
          now := 9 }).index = some c ∧ c.lastModified = 5) :=
  syncVault_hash_skip _ ⟨"A.md", "", "A.md", "A", "md", 5, "h1", "", []⟩
    ⟨"A.md", "idA", "h1", 0⟩ (by decide) (by decide) (by decide) (by decide)

/-- C10: a per-item transfer failure for a path with an existing
mismatched manifest entry leaves the path out of the kept set, so the
cleaning phase of the non-cancelled run soft-deletes the remote object
and removes the path from both the manifest and the local index. -/
theorem syncVault_failed_update_deletes (e : Env) (f : LocalFile) (r : RemoteEntry)
    (hnd : (pathsOf (filesToSync e)).Nodup)
    (hm0 : (keysOf e.manifest0).Nodup)
    (hi0 : (keysOf e.syncIndex0).Nodup)
    (hf : f ∈ filesToSync e)
    (hm : getKey f.path e.manifest0 = some r)
    (hne : r.hash ≠ diffHash e.syncIndex0 f)
    (hup : e.uploadOk f.path = false)
    (hdel : e.deleteOk f.path = true) :
    f.path ∉ (syncVault e).kept
    ∧ DriveCall.softDelete f.path ∈ (syncVault e).trace
    ∧ getKey f.path (syncVault e).manifest = none
    ∧ getKey f.path (syncVault e).index = none := by
  have hsc : skipCheckM e.manifest0 e.syncIndex0 f = false :=
    skipCheckM_false_of_ne _ _ f r hm hne
  obtain ⟨hfu, hidx, hknot⟩ :=
    ((diff_foldl_spec e (filesToSync e) ⟨e.syncIndex0, [], []⟩ hnd f hf).2 hsc)
  have hupnd := diffPass_toUpload_paths_nodup e hnd
  have hknot' : f.path ∉ (diffPass e).kept := hknot (List.not_mem_nil f.path)
  obtain ⟨hmidkept, hmidm, hmidi⟩ :=
    transfer_foldl_failed e (diffPass e).toUpload
      ⟨e.manifest0, (diffPass e).index, (diffPass e).kept, []⟩ f r hupnd hfu
      hm (by
        show r.hash ≠ diffHash (diffPass e).index f
        rw [show diffHash (diffPass e).index f = diffHash e.syncIndex0 f from
          diffHash_congr f hidx]
        exact hne) hup hknot'
  have hmidm' : getKey f.path (transferPass e (diffPass e)).manifest = some r := hmidm
  have hmidkept' : f.path ∉ (transferPass e (diffPass e)).kept := hmidkept
  have hmidnodup := transfer_foldl_nodup e (diffPass e).toUpload
    ⟨e.manifest0, (diffPass e).index, (diffPass e).kept, []⟩ hm0
    (diff_foldl_index_nodup e (filesToSync e) ⟨e.syncIndex0, [], []⟩ hi0)
  have hmem : f.path ∈ keysOf (transferPass e (diffPass e)).manifest := by
    rw [mem_keysOf_iff, hmidm']
    rfl
  obtain ⟨hfm, hfi, hftr⟩ := clean_foldl_orphan e
    (keysOf (transferPass e (diffPass e)).manifest)
    (transferPass e (diffPass e)) f.path hmem hmidkept
    (filesToSync_not_excluded e f hf) hdel hmidnodup.1 hmidnodup.2 hmem
  refine ⟨?_, hftr, hfm, hfi⟩
  rw [show (syncVault e).kept = (transferPass e (diffPass e)).kept from
    clean_foldl_kept e _ _]
  exact hmidkept

/-- Witness for C10 on a concrete environment: the update of `A.md` fails,
so the cleaning phase trashes the stale remote copy and drops the entry
from manifest and index. -/
theorem syncVault_failed_update_deletes_witness :
    "A.md" ∉ (syncVault
        { files := [⟨"A.md", "", "A.md", "A", "md", 5, "h2", "", []⟩]
          excludedFolders := []
          syncPDFs := false, syncCanvas := false, syncImages := false
          syncIndex0 := []
          manifest0 := [("A.md", ⟨"A.md", "idA", "h1", 0⟩)]
          listing := fun _ _ => none
          uploadOk := fun _ => false
          deleteOk := fun _ => true
          newId := fun _ => "n"
          now := 9 }).kept
    ∧ DriveCall.softDelete "A.md" ∈ (syncVault
        { files := [⟨"A.md", "", "A.md", "A", "md", 5, "h2", "", []⟩]
          excludedFolders := []
          syncPDFs := false, syncCanvas := false, syncImages := false
          syncIndex0 := []
          manifest0 := [("A.md", ⟨"A.md", "idA", "h1", 0⟩)]
          listing := fun _ _ => none
          uploadOk := fun _ => false
          deleteOk := fun _ => true
          newId := fun _ => "n"
          now := 9 }).trace
    ∧ getKey "A.md" (syncVault
        { files := [⟨"A.md", "", "A.md", "A", "md", 5, "h2", "", []⟩]
          excludedFolders := []
          syncPDFs := false, syncCanvas := false, syncImages := false
          syncIndex0 := []
          manifest0 := [("A.md", ⟨"A.md", "idA", "h1", 0⟩)]
          listing := fun _ _ => none
          uploadOk := fun _ => false
          deleteOk := fun _ => true
          newId := fun _ => "n"
          now := 9 }).manifest = none
    ∧ getKey "A.md" (syncVault
        { files := [⟨"A.md", "", "A.md", "A", "md", 5, "h2", "", []⟩]
          excludedFolders := []
          syncPDFs := false, syncCanvas := false, syncImages := false
          syncIndex0 := []
          manifest0 := [("A.md", ⟨"A.md", "idA", "h1", 0⟩)]
          listing := fun _ _ => none
          uploadOk := fun _ => false
          deleteOk := fun _ => true
          newId := fun _ => "n"
          now := 9 }).index = none :=
  syncVault_failed_update_deletes _ ⟨"A.md", "", "A.md", "A", "md", 5, "h2", "", []⟩
    ⟨"A.md", "idA", "h1", 0⟩ (by decide) (by decide) (by decide) (by decide) (by decide)
    (by decide) (by decide) (by decide)

theorem mem_pathsOf {p : String} {l : List LocalFile} :
    p ∈ pathsOf l ↔ ∃ f ∈ l, f.path = p := by
  simp [pathsOf, List.mem_map]

/-- C1: on a successful, non-cancelled run (every transfer and every
orphan deletion succeeds), the final manifest's key set equals exactly the
set of local paths accepted by the inclusion filter, except that manifest
paths under an excluded folder are retained; and those retained excluded
entries are left untouched. -/
theorem syncVault_mirror_invariant (e : Env)
    (hnd : (pathsOf (filesToSync e)).Nodup)
    (hm0 : (keysOf e.manifest0).Nodup)
    (hi0 : (keysOf e.syncIndex0).Nodup)
    (hu : ∀ f ∈ (diffPass e).toUpload, e.uploadOk f.path = true)
    (hd : ∀ p ∈ orphanPaths e, e.deleteOk p = true) :
    (∀ p : String, p ∈ keysOf (syncVault e).manifest
        ↔ (p ∈ pathsOf (filesToSync e)
            ∨ (p ∈ keysOf e.manifest0 ∧ isExcluded e.excludedFolders p = true)))
    ∧ (∀ p : String, p ∈ keysOf e.manifest0 → isExcluded e.excludedFolders p = true →
        getKey p (syncVault e).manifest = getKey p e.manifest0) := by
  have hupnd := diffPass_toUpload_paths_nodup e hnd
  have hupsub : ∀ q ∈ pathsOf (diffPass e).toUpload, q ∈ pathsOf (filesToSync e) := by
    intro q hq
    rcases diff_foldl_toUpload_paths_sub e (filesToSync e) ⟨e.syncIndex0, [], []⟩ q hq
      with h | h
    · simp [pathsOf] at h
    · exact h
  have hkeptsub : ∀ q ∈ (transferPass e (diffPass e)).kept, q ∈ pathsOf (filesToSync e) := by
    intro q hq
    rcases transfer_foldl_kept_sub e (diffPass e).toUpload
        ⟨e.manifest0, (diffPass e).index, (diffPass e).kept, []⟩ q hq with h | h
    · rcases diff_foldl_kept_sub e (filesToSync e) ⟨e.syncIndex0, [], []⟩ q h with h2 | h2
      · simp at h2
      · exact h2
    · exact hupsub q h
  have hfilt : ∀ p ∈ pathsOf (filesToSync e),
      p ∈ keysOf (transferPass e (diffPass e)).manifest
      ∧ p ∈ (transferPass e (diffPass e)).kept := by
    intro p hp
    obtain ⟨f, hfmem, rfl⟩ := mem_pathsOf.mp hp
    cases hsc : skipCheckM e.manifest0 e.syncIndex0 f with
    | true =>
      obtain ⟨hkept, _, _, _⟩ :=
        (diff_foldl_spec e (filesToSync e) ⟨e.syncIndex0, [], []⟩ hnd f hfmem).1 hsc
      constructor
      · have hkey0 : f.path ∈ keysOf e.manifest0 := by
          obtain ⟨r, hmr, _⟩ := (skipCheckM_true_iff _ _ _).mp hsc
          rw [mem_keysOf_iff, hmr]
          rfl
        exact transfer_foldl_keys_mono e (diffPass e).toUpload
          ⟨e.manifest0, (diffPass e).index, (diffPass e).kept, []⟩ f.path hkey0
      · exact transfer_foldl_kept_mono e (diffPass e).toUpload
          ⟨e.manifest0, (diffPass e).index, (diffPass e).kept, []⟩ f.path hkept
    | false =>
      have hfu :=
        ((diff_foldl_spec e (filesToSync e) ⟨e.syncIndex0, [], []⟩ hnd f hfmem).2 hsc).1
      obtain ⟨h1, h2, _⟩ := transfer_foldl_uploadOk e (diffPass e).toUpload
        ⟨e.manifest0, (diffPass e).index, (diffPass e).kept, []⟩ hupnd f hfu (hu f hfu)
      exact ⟨h1, h2⟩
  have hmidnodup := transfer_foldl_nodup e (diffPass e).toUpload
    ⟨e.manifest0, (diffPass e).index, (diffPass e).kept, []⟩ hm0
    (diff_foldl_index_nodup e (filesToSync e) ⟨e.syncIndex0, [], []⟩ hi0)
  have horph : ∀ p, p ∈ keysOf (transferPass e (diffPass e)).manifest →
      p ∉ (transferPass e (diffPass e)).kept → isExcluded e.excludedFolders p = false →
      p ∈ orphanPaths e := by
    intro p h1 h2 h3
    unfold orphanPaths
    rw [List.mem_filter]
    refine ⟨h1, ?_⟩
    have hc : (transferPass e (diffPass e)).kept.contains p = false := by
      cases hcc : (transferPass e (diffPass e)).kept.contains p
      · rfl
      · exact absurd (List.elem_iff.mp hcc) h2
    simp [hc, h3]
    exact h2
  constructor
  · intro p
    constructor
    · intro hpfin
      have hpmid : p ∈ keysOf (transferPass e (diffPass e)).manifest :=
        clean_foldl_keys_sub e (keysOf (transferPass e (diffPass e)).manifest)
          (transferPass e (diffPass e)) p hpfin
      by_cases hkept : p ∈ (transferPass e (diffPass e)).kept
      · left
        exact hkeptsub p hkept
      · by_cases hexcl : isExcluded e.excludedFolders p = true
        · right
          refine ⟨?_, hexcl⟩
          rcases transfer_foldl_keys_sub e (diffPass e).toUpload
              ⟨e.manifest0, (diffPass e).index, (diffPass e).kept, []⟩ p hpmid with h | h
          · exact h
          · exfalso
            obtain ⟨f, hfmem, rfl⟩ := mem_pathsOf.mp h
            exact hkept (transfer_foldl_uploadOk e (diffPass e).toUpload
              ⟨e.manifest0, (diffPass e).index, (diffPass e).kept, []⟩ hupnd f hfmem
              (hu f hfmem)).2.1
        · exfalso
          have hx : isExcluded e.excludedFolders p = false := by
            cases hb : isExcluded e.excludedFolders p
            · rfl
            · exact absurd hb hexcl
          obtain ⟨hnone, _, _⟩ := clean_foldl_orphan e
            (keysOf (transferPass e (diffPass e)).manifest)
            (transferPass e (diffPass e)) p hpmid hkept hx
            (hd p (horph p hpmid hkept hx)) hmidnodup.1 hmidnodup.2 hpmid
          have h5 : getKey p (syncVault e).manifest = none := hnone
          rw [mem_keysOf_iff, h5] at hpfin
          exact absurd hpfin (by simp)
    · intro hp
      have hback : ∀ q, q ∈ keysOf (transferPass e (diffPass e)).manifest →
          (q ∈ (transferPass e (diffPass e)).kept
            ∨ isExcluded e.excludedFolders q = true) →
          q ∈ keysOf (syncVault e).manifest := by
        intro q h1 h2
        have hprot : getKey q (syncVault e).manifest
            = getKey q (transferPass e (diffPass e)).manifest :=
          (clean_foldl_protected e (keysOf (transferPass e (diffPass e)).manifest)
            (transferPass e (diffPass e)) q h2).1
        rw [mem_keysOf_iff, hprot, ← mem_keysOf_iff]
        exact h1
      rcases hp with hp | ⟨hp0, hpx⟩
      · obtain ⟨h1, h2⟩ := hfilt p hp
        exact hback p h1 (Or.inl h2)
      · have h1 : p ∈ keysOf (transferPass e (diffPass e)).manifest :=
          transfer_foldl_keys_mono e (diffPass e).toUpload
            ⟨e.manifest0, (diffPass e).index, (diffPass e).kept, []⟩ p hp0
        exact hback p h1 (Or.inr hpx)
  · intro p hp0 hpx
    have hnotfilt : p ∉ pathsOf (diffPass e).toUpload := by
      intro hmem
      obtain ⟨f, hfmem, rfl⟩ := mem_pathsOf.mp (hupsub p hmem)
      have hfe := filesToSync_not_excluded e f hfmem
      rw [hfe] at hpx
      exact absurd hpx (by simp)
    have hmidm : getKey p (transferPass e (diffPass e)).manifest
        = getKey p e.manifest0 :=
      transfer_foldl_manifest_frame e (diffPass e).toUpload
        ⟨e.manifest0, (diffPass e).index, (diffPass e).kept, []⟩ p hnotfilt
    have hprot : getKey p (syncVault e).manifest
        = getKey p (transferPass e (diffPass e)).manifest :=
      (clean_foldl_protected e (keysOf (transferPass e (diffPass e)).manifest)
        (transferPass e (diffPass e)) p (Or.inr hpx)).1
    rw [hprot, hmidm]

/-- Witness for C1 on a concrete environment matching the spec's orphan
cleanup scenario: `A.md` unchanged, `B.md` new, `D.md` an orphan, and an
excluded pre-existing remote path retained. -/
theorem syncVault_mirror_invariant_witness :
    (∀ p : String, p ∈ keysOf (syncVault
        { files := [⟨"A.md", "", "A.md", "A", "md", 5, "h1", "", []⟩,
                    ⟨"B.md", "", "B.md", "B", "md", 6, "hb", "", []⟩]
          excludedFolders := ["secret"]
          syncPDFs := false, syncCanvas := false, syncImages := false
          syncIndex0 := []
          manifest0 := [("A.md", ⟨"A.md", "idA", "h1", 0⟩),
                        ("D.md", ⟨"D.md", "idD", "h4", 0⟩),
                        ("secret/S.md", ⟨"secret/S.md", "idS", "hs", 0⟩)]
          listing := fun _ _ => none
          uploadOk := fun _ => true
          deleteOk := fun _ => true
          newId := fun p => "new-" ++ p
          now := 9 }).manifest
        ↔ (p ∈ pathsOf (filesToSync
            { files := [⟨"A.md", "", "A.md", "A", "md", 5, "h1", "", []⟩,
                        ⟨"B.md", "", "B.md", "B", "md", 6, "hb", "", []⟩]
              excludedFolders := ["secret"]
              syncPDFs := false, syncCanvas := false, syncImages := false
              syncIndex0 := []
              manifest0 := [("A.md", ⟨"A.md", "idA", "h1", 0⟩),
                            ("D.md", ⟨"D.md", "idD", "h4", 0⟩),
                            ("secret/S.md", ⟨"secret/S.md", "idS", "hs", 0⟩)]
              listing := fun _ _ => none
              uploadOk := fun _ => true
              deleteOk := fun _ => true
              newId := fun p => "new-" ++ p
              now := 9 })
            ∨ (p ∈ keysOf [("A.md", (⟨"A.md", "idA", "h1", 0⟩ : RemoteEntry)),
                            ("D.md", ⟨"D.md", "idD", "h4", 0⟩),
                            ("secret/S.md", ⟨"secret/S.md", "idS", "hs", 0⟩)]
              ∧ isExcluded ["secret"] p = true)))
    ∧ (∀ p : String,
        p ∈ keysOf [("A.md", (⟨"A.md", "idA", "h1", 0⟩ : RemoteEntry)),
                    ("D.md", ⟨"D.md", "idD", "h4", 0⟩),
                    ("secret/S.md", ⟨"secret/S.md", "idS", "hs", 0⟩)] →
        isExcluded ["secret"] p = true →
        getKey p (syncVault
          { files := [⟨"A.md", "", "A.md", "A", "md", 5, "h1", "", []⟩,
                      ⟨"B.md", "", "B.md", "B", "md", 6, "hb", "", []⟩]
            excludedFolders := ["secret"]
            syncPDFs := false, syncCanvas := false, syncImages := false
            syncIndex0 := []
            manifest0 := [("A.md", ⟨"A.md", "idA", "h1", 0⟩),
                          ("D.md", ⟨"D.md", "idD", "h4", 0⟩),
                          ("secret/S.md", ⟨"secret/S.md", "idS", "hs", 0⟩)]
            listing := fun _ _ => none
            uploadOk := fun _ => true
            deleteOk := fun _ => true
            newId := fun p => "new-" ++ p
            now := 9 }).manifest
          = getKey p [("A.md", ⟨"A.md", "idA", "h1", 0⟩),
                      ("D.md", ⟨"D.md", "idD", "h4", 0⟩),
                      ("secret/S.md", ⟨"secret/S.md", "idS", "hs", 0⟩)]) :=
  syncVault_mirror_invariant _ (by decide) (by decide) (by decide)
    (fun _ _ => rfl) (fun _ _ => rfl)

/-! ### Idempotence (second run) -/

/-- The environment of an immediately following run with no local
changes: same files, settings and oracles, with the manifest and index
produced by the first run. -/
def rerunEnv (e : Env) : Env :=
  { e with manifest0 := (syncVault e).manifest, syncIndex0 := (syncVault e).index }

def isTransferCall : DriveCall → Bool
  | DriveCall.create _ => true
  | DriveCall.update _ => true
  | DriveCall.softDelete _ => false

/-- A diff pass in which every file passes the skip check classifies
nothing for upload. -/
theorem diff_foldl_allskip (e : Env) (L : List LocalFile) :
    ∀ acc : DiffState, (pathsOf L).Nodup →
      (∀ f ∈ L, skipCheckM e.manifest0 acc.index f = true) →
      (L.foldl (diffStep e) acc).toUpload = acc.toUpload := by
  induction L with
  | nil => intro acc _ _; rfl
  | cons g rest ih =>
    intro acc hnd hall
    simp only [pathsOf, List.map_cons, List.nodup_cons] at hnd
    simp only [List.foldl_cons]
    have hg := hall g (List.mem_cons_self g rest)
    obtain ⟨_, ht, _, _, hfr⟩ := diffStep_skip_spec e acc g hg
    have hrest : ∀ f ∈ rest, skipCheckM e.manifest0 (diffStep e acc g).index f = true := by
      intro f hf
      have hne : f.path ≠ g.path := fun hh =>
        hnd.1 (hh ▸ List.mem_map_of_mem LocalFile.path hf)
      rw [skipCheckM_congr f rfl (hfr f.path hne)]
      exact hall f (List.mem_cons_of_mem g hf)
    rw [ih (diffStep e acc g) hnd.2 hrest, ht]

/-- C7: after a fully successful non-cancelled run, a second run over the
same unchanged local files classifies nothing for upload and issues zero
create and zero update transfer calls. -/
theorem syncVault_idempotent (e : Env)
    (hnd : (pathsOf (filesToSync e)).Nodup)
    (hu : ∀ f ∈ (diffPass e).toUpload, e.uploadOk f.path = true)
    (_hd : ∀ p ∈ orphanPaths e, e.deleteOk p = true) :
    (diffPass (rerunEnv e)).toUpload = []
    ∧ (syncVault (rerunEnv e)).trace.filter isTransferCall = [] := by
  have hskip := syncVault_skipReady e hnd hu
  have hnd' : (pathsOf (filesToSync (rerunEnv e))).Nodup := hnd
  have hall : ∀ f ∈ filesToSync (rerunEnv e),
      skipCheckM (rerunEnv e).manifest0
        ((⟨(rerunEnv e).syncIndex0, [], []⟩ : DiffState)).index f = true := by
    intro f hf
    exact hskip f hf
  have h1 : (diffPass (rerunEnv e)).toUpload = [] := by
    have h := diff_foldl_allskip (rerunEnv e) (filesToSync (rerunEnv e))
      ⟨(rerunEnv e).syncIndex0, [], []⟩ hnd' hall
    simpa using h
  refine ⟨h1, ?_⟩
  rw [List.filter_eq_nil_iff]
  intro ev hev
  have hmidtrace : (transferPass (rerunEnv e) (diffPass (rerunEnv e))).trace = [] := by
    unfold transferPass
    rw [h1]
    rfl
  rcases clean_foldl_trace_sub (rerunEnv e)
      (keysOf (transferPass (rerunEnv e) (diffPass (rerunEnv e))).manifest)
      (transferPass (rerunEnv e) (diffPass (rerunEnv e))) ev hev with h2 | ⟨q, h2⟩
  · rw [hmidtrace] at h2
    exact absurd h2 (List.not_mem_nil ev)
  · rw [h2]
    simp [isTransferCall]

/-- Witness for C7 on a concrete environment: after the first run over
`A.md` (unchanged) and `B.md` (new), the second run classifies nothing and
makes no transfer calls. -/
theorem syncVault_idempotent_witness :
    (diffPass (rerunEnv
      { files := [⟨"A.md", "", "A.md", "A", "md", 5, "h1", "", []⟩,
                  ⟨"B.md", "", "B.md", "B", "md", 6, "hb", "", []⟩]
        excludedFolders := []
        syncPDFs := false, syncCanvas := false, syncImages := false
        syncIndex0 := []
        manifest0 := [("A.md", ⟨"A.md", "idA", "h1", 0⟩),
                      ("D.md", ⟨"D.md", "idD", "h4", 0⟩)]
        listing := fun _ _ => none
        uploadOk := fun _ => true
        deleteOk := fun _ => true
        newId := fun p => "new-" ++ p
        now := 9 })).toUpload = []
    ∧ (syncVault (rerunEnv
      { files := [⟨"A.md", "", "A.md", "A", "md", 5, "h1", "", []⟩,
                  ⟨"B.md", "", "B.md", "B", "md", 6, "hb", "", []⟩]
        excludedFolders := []
        syncPDFs := false, syncCanvas := false, syncImages := false
        syncIndex0 := []
        manifest0 := [("A.md", ⟨"A.md", "idA", "h1", 0⟩),
                      ("D.md", ⟨"D.md", "idD", "h4", 0⟩)]
        listing := fun _ _ => none
        uploadOk := fun _ => true
        deleteOk := fun _ => true
        newId := fun p => "new-" ++ p
        now := 9 })).trace.filter isTransferCall = [] :=
  syncVault_idempotent _ (by decide) (fun _ _ => rfl) (fun _ _ => rfl)

/-! ### Content hashing and line endings (C5) -/

/-- C5 counterexample: `calculateFileHash` feeds the raw `vault.read`
text to the digest with no line-ending normalization (the codebase's only
normalizer lives in the document converter), so two markdown contents
that differ only in line endings — their normalized forms coincide —
produce different hashes. -/
theorem calculateFileHash_no_normalization :
    normalizeNewlines "alpha\r\nbeta" = normalizeNewlines "alpha\nbeta"
    ∧ calculateFileHash ⟨"n.md", "", "n.md", "n", "md", 0, "alpha\r\nbeta", "", []⟩
        ≠ calculateFileHash ⟨"n.md", "", "n.md", "n", "md", 0, "alpha\nbeta", "", []⟩ := by
  constructor
  · decide
  · decide

/-- C5 (amended): for every binary file the digest is computed over the
exact byte content; for every markdown file it is computed over the raw,
unnormalized text, so when the remote hash corresponds to the normalized
form of a text that is not already normalized, the diff engine classifies
the file as needing transfer — a line-ending difference DOES trigger a
re-sync rather than being absorbed. -/
theorem calculateFileHash_inputs (f : LocalFile) :
    (f.extension ≠ "md" → f.extension ≠ "canvas" →
        calculateFileHash f = cryptoMD5Bytes f.binaryContent)
    ∧ (f.extension = "md" → calculateFileHash f = cryptoMD5 f.textContent)
    ∧ (∀ e : Env, ∀ r : RemoteEntry, f.extension = "md" →
        getKey f.path e.manifest0 = some r →
        r.hash = cryptoMD5 (normalizeNewlines f.textContent) →
        normalizeNewlines f.textContent ≠ f.textContent →
        getKey f.path e.syncIndex0 = none →
        skipCheckM e.manifest0 e.syncIndex0 f = false) := by
  refine ⟨?_, ?_, ?_⟩
  · intro h1 h2
    unfold calculateFileHash
    rw [if_neg h1, if_neg h2]
  · intro h1
    unfold calculateFileHash
    rw [if_pos h1]
  · intro e r hmd hm hr hne hidx
    refine skipCheckM_false_of_ne e.manifest0 e.syncIndex0 f r hm ?_
    have hdh : diffHash e.syncIndex0 f = f.textContent := by
      unfold diffHash
      rw [hidx]
      unfold calculateFileHash
      rw [if_pos hmd]
      rfl
    rw [hr, hdh]
    exact hne

/-- Witness for the amended C5 at a concrete input: a CRLF markdown file
whose manifest entry stores the hash of the LF-normalized text is
classified for transfer. -/
theorem calculateFileHash_inputs_witness :
    ((⟨"p.png", "", "p.png", "p", "png", 0, "", "", [1, 2]⟩ : LocalFile).extension ≠ "md"
      → (⟨"p.png", "", "p.png", "p", "png", 0, "", "", [1, 2]⟩ : LocalFile).extension ≠ "canvas"
      → calculateFileHash ⟨"p.png", "", "p.png", "p", "png", 0, "", "", [1, 2]⟩
          = cryptoMD5Bytes [1, 2])
    ∧ calculateFileHash ⟨"p.png", "", "p.png", "p", "png", 0, "", "", [1, 2]⟩
        = cryptoMD5Bytes [1, 2]
    ∧ skipCheckM
        [("n.md", (⟨"n.md", "id1", cryptoMD5 (normalizeNewlines "a\r\nb"), 0⟩ : RemoteEntry))]
        [] ⟨"n.md", "", "n.md", "n", "md", 0, "a\r\nb", "", []⟩ = false :=
  ⟨(calculateFileHash_inputs ⟨"p.png", "", "p.png", "p", "png", 0, "", "", [1, 2]⟩).1,
   (calculateFileHash_inputs ⟨"p.png", "", "p.png", "p", "png", 0, "", "", [1, 2]⟩).1
     (by decide) (by decide),
   (calculateFileHash_inputs ⟨"n.md", "", "n.md", "n", "md", 0, "a\r\nb", "", []⟩).2.2
     { files := []
       excludedFolders := []
       syncPDFs := false, syncCanvas := false, syncImages := false
       syncIndex0 := []
       manifest0 :=
         [("n.md", ⟨"n.md", "id1", cryptoMD5 (normalizeNewlines "a\r\nb"), 0⟩)]
       listing := fun _ _ => none
       uploadOk := fun _ => true
       deleteOk := fun _ => true
       newId := fun _ => "n"
       now := 0 }
     ⟨"n.md", "id1", cryptoMD5 (normalizeNewlines "a\r\nb"), 0⟩
     (by decide) (by decide) (by decide) (by decide) (by decide)⟩

end GeminiSync
